import Mathlib

/-! Verification Summary Attestations: generation, writing, orchestration.

A shallow embedding of `internal/validate/vsa/vsa.go` and
`internal/validate/vsa/service.go`.

Conventions of the embedding.

* A Go `error` is a `GoError`; the nil error is `none : Option GoError`.
  `fmt.Errorf("msg: %w", err)` is `GoError.wrapf "msg" err`.
* A Go function returning `(string, error)` returns `String × Option GoError`.
* `evaluator.Result`, the component source locator, `context.Context`,
  `oci.Signature` and the attestor are declared outside these two files; they
  are type parameters (`ρ`, `κ`, `Ctx`, `Sig`, `α`).
* Calls to `log.Infof` / `log.Errorf` write to the logger only and never
  influence a returned value or the control flow; they are not represented.
* The service's collaborators declared in other files (`GenerateAndWriteVSA`,
  `NewAttestor`, `AttestVSA`, the snapshot generator, writer and digest) are
  parameters: arbitrary transformers of an arbitrary state. The calls made
  during a run are recorded in a trace, on which the statements about call
  counts and call order are made.
* The writer runs on a model of the operating system's filesystem, the one
  `NewWriter` selects: directories and regular files under cleaned paths,
  `mkdir` and `open(O_WRONLY|O_CREATE|O_TRUNC)` with their usual outcomes.
  `filepath.Clean`, `Join`, `Dir` and `Base` are those of Go on Unix.
  `json.MarshalIndent`, `$TMPDIR` and the random names are parameters.
-/

namespace VSA

/-! ## Go errors -/

/-- A Go error value: either created from a plain message, or created by
`fmt.Errorf` with a trailing `: %w` verb around a cause. -/
inductive GoError where
  | errorf (msg : String)
  | wrapf (msg : String) (cause : GoError)
  deriving DecidableEq, Repr

namespace GoError

/-- The text returned by the `Error()` method. -/
def Error : GoError → String
  | errorf msg => msg
  | wrapf msg cause => msg ++ ": " ++ cause.Error

/-- The result of `errors.Unwrap`. -/
def Unwrap : GoError → Option GoError
  | errorf _ => none
  | wrapf _ cause => some cause

end GoError

/-- Substring test on texts (`strings.Contains`). -/
def contains (s sub : String) : Prop := sub.data <:+: s.data

instance (s sub : String) : Decidable (contains s sub) := by
  unfold contains; infer_instance

/-! ## Input data: reports and components -/

/-- The fields of `applicationsnapshot.Component` read by this package. -/
structure Component (ρ κ : Type) where
  Name : String
  ContainerImage : String
  Source : κ
  Violations : List ρ
  Warnings : List ρ
  Successes : List ρ
  Success : Bool
  deriving DecidableEq

/-- The field of the report's policy read by this package. -/
structure Policy where
  Name : String
  deriving DecidableEq

/-- The fields of `applicationsnapshot.Report` read by this package. -/
structure Report (ρ κ : Type) where
  Components : List (Component ρ κ)
  Policy : Policy
  deriving DecidableEq

/-! ## Predicate -/

/-- A dynamically typed value stored in the `Component` map of a predicate:
a Go string, or a value of the source-locator type. -/
inductive Value (κ : Type) where
  | str (s : String)
  | source (x : κ)
  deriving DecidableEq

/-- A Go `map[string]interface{}` built from a literal: an association list,
looked up by key. -/
abbrev GoMap (κ : Type) := List (String × Value κ)

/-- Map indexing `m[key]`; `none` is the nil interface of a missing key. -/
def GoMap.index {κ : Type} (m : GoMap κ) (key : String) : Option (Value κ) :=
  match m.find? (fun kv => kv.1 == key) with
  | some kv => some kv.2
  | none => none

/-- Predicate represents a Verification Summary Attestation (VSA) predicate. -/
structure Predicate (ρ κ : Type) where
  ImageRef : String
  ValidationResult : String
  Timestamp : String
  Verifier : String
  PolicySource : String
  Component : GoMap κ
  RuleResults : List ρ
  deriving DecidableEq

/-! ## Generator -/

/-- Generator handles VSA predicate generation. -/
structure Generator (ρ κ : Type) where
  Report : Report ρ κ
  Component : Component ρ κ
  deriving DecidableEq

/-- NewGenerator creates a new VSA predicate generator. -/
def NewGenerator {ρ κ : Type} (report : Report ρ κ) (comp : Component ρ κ) : Generator ρ κ :=
  { Report := report, Component := comp }

/-- GeneratePredicate creates a Predicate for a validated image/component.
`now` is the text `time.Now().UTC().Format(time.RFC3339)` evaluates to. -/
def Generator.GeneratePredicate {ρ κ Ctx : Type} (g : Generator ρ κ) (_ctx : Ctx) (now : String) :
    Except GoError (Predicate ρ κ) :=
  let componentInfo : GoMap κ :=
    [ ("name", Value.str g.Component.Name),
      ("containerImage", Value.str g.Component.ContainerImage),
      ("source", Value.source g.Component.Source) ]
  let ruleResults : List ρ := []
  let ruleResults := ruleResults ++ g.Component.Violations
  let ruleResults := ruleResults ++ g.Component.Warnings
  let ruleResults := ruleResults ++ g.Component.Successes
  let validationResult := "failed"
  let validationResult := if g.Component.Success then "passed" else validationResult
  let policySource := ""
  let policySource := if g.Report.Policy.Name ≠ "" then g.Report.Policy.Name else policySource
  Except.ok
    { ImageRef := g.Component.ContainerImage
      ValidationResult := validationResult
      Timestamp := now
      Verifier := "ec-cli"
      PolicySource := policySource
      Component := componentInfo
      RuleResults := ruleResults }

/-! ## Built-in uploaders -/

/-- AttestationUploader is a function that uploads an attestation and returns
a result string or error. -/
abbrev AttestationUploader (Ctx Sig : Type) := Ctx → Sig → String → String × Option GoError

/-- OCIUploader: the OCI upload is not implemented. -/
def OCIUploader {Ctx Sig : Type} : AttestationUploader Ctx Sig := fun _ctx _att _location =>
  ("", some (GoError.errorf "OCI upload not implemented"))

/-- RekorUploader: the Rekor upload is not implemented. -/
def RekorUploader {Ctx Sig : Type} : AttestationUploader Ctx Sig := fun _ctx _att _location =>
  ("", some (GoError.errorf "rekor upload not implemented"))

/-- NoopUploader: upload type is none; the upload is skipped. -/
def NoopUploader {Ctx Sig : Type} : AttestationUploader Ctx Sig := fun _ctx _att _location =>
  ("", none)

/-! ## Writer -/

/-- Writer handles VSA file writing. The `FS` field of the Go struct is a
handle on the filesystem; here the filesystem is the state passed to and
returned by the functions that use the writer. -/
structure Writer where
  TempDirPrefix : String
  FilePerm : Nat
  deriving DecidableEq

/-- NewWriter creates a new VSA file writer. -/
def NewWriter : Writer :=
  { TempDirPrefix := "vsa-", FilePerm := 0o600 }

/-! ## Paths (`path/filepath` on Unix) -/

/-- The elements of a path: the texts between its separators. -/
def splitSlash : List Char → List (List Char)
  | [] => [[]]
  | c :: cs =>
    if c = '/' then [] :: splitSlash cs
    else
      match splitSlash cs with
      | [] => [[c]]
      | x :: xs => (c :: x) :: xs

/-- One element of a path read by `filepath.Clean`; `stack` holds the elements
kept so far, the last one first. An empty element and `.` are dropped; `..`
removes the element before it when that is not itself a kept `..`, is dropped
at the root, and is kept otherwise; any other element is kept. -/
def cleanStep (rooted : Bool) (stack : List (List Char)) (el : List Char) : List (List Char) :=
  if el = [] ∨ el = ['.'] then stack
  else if el = ['.', '.'] then
    match stack with
    | top :: below => if top = ['.', '.'] then el :: stack else below
    | [] => if rooted then [] else [el]
  else el :: stack

/-- Elements joined by the separator. -/
def joinSlash : List (List Char) → List Char
  | [] => []
  | [x] => x
  | x :: y :: rest => x ++ '/' :: joinSlash (y :: rest)

/-- The function `filepath.Clean` on the characters of a path: the shortest
path equivalent to it by purely lexical processing. -/
def cleanChars (path : List Char) : List Char :=
  if path = [] then ['.']
  else
    let rooted := path.head? = some '/'
    let stack := (splitSlash path).foldl (cleanStep rooted) []
    if rooted then '/' :: joinSlash stack.reverse
    else if stack = [] then ['.']
    else joinSlash stack.reverse

/-- The function `filepath.Clean`. -/
def Clean (path : String) : String := String.mk (cleanChars path.data)

/-- The function `filepath.Join` of two elements: leading empty elements are
ignored, the rest is joined by the separator and cleaned. -/
def Join (a b : String) : String :=
  if a ≠ "" then Clean (a ++ "/" ++ b)
  else if b ≠ "" then Clean b
  else ""

/-- The path up to and including its last separator. -/
def throughLastSlash (path : List Char) : List Char :=
  (path.reverse.dropWhile (fun c => c ≠ '/')).reverse

/-- The function `filepath.Dir`: all but the last element of the path,
cleaned. -/
def Dir (path : String) : String := String.mk (cleanChars (throughLastSlash path.data))

/-- The function `filepath.Base`: the last element of the path. -/
def Base (path : String) : String :=
  if path = "" then "."
  else
    let p := (path.data.reverse.dropWhile (fun c => c = '/')).reverse
    let b := (p.reverse.takeWhile (fun c => c ≠ '/')).reverse
    if b = [] then "/" else String.mk b

/-! ## The filesystem behind `afero.NewOsFs()` -/

/-- A regular file: its content and its permission bits. -/
structure File where
  data : String
  perm : Nat
  deriving DecidableEq

/-- A filesystem state: the directories and the regular files, each under its
path. The paths handed to the filesystem by this package are all results of
`filepath.Join`, so a path stands for itself. -/
structure Fs where
  dirs : List String
  files : List (String × File)
  deriving DecidableEq

/-- The file under a path. -/
def Fs.file (fs : Fs) (path : String) : Option File :=
  match fs.files.find? (fun kv => kv.1 == path) with
  | some kv => some kv.2
  | none => none

/-- The error numbers a call can fail with here. -/
inductive Errno where
  | EEXIST
  | ENOENT
  | ENOTDIR
  | EISDIR
  deriving DecidableEq

/-- The text of an error number. -/
def Errno.Error : Errno → String
  | EEXIST => "file exists"
  | ENOENT => "no such file or directory"
  | ENOTDIR => "not a directory"
  | EISDIR => "is a directory"

/-- The `*fs.PathError` of a failed call. -/
def pathError (op path : String) (e : Errno) : GoError :=
  GoError.errorf (op ++ " " ++ path ++ ": " ++ e.Error)

/-- The call `fs.Mkdir(name, perm)`: fails when the name is taken or its
parent is not a directory, and creates the directory otherwise. The
permission bits of directories are not recorded. -/
def Fs.Mkdir (fs : Fs) (name : String) (_perm : Nat) : Option Errno × Fs :=
  if name ∈ fs.dirs ∨ (fs.file name).isSome then (some Errno.EEXIST, fs)
  else if (fs.file (Dir name)).isSome then (some Errno.ENOTDIR, fs)
  else if Dir name ∉ fs.dirs then (some Errno.ENOENT, fs)
  else (none, { fs with dirs := name :: fs.dirs })

/-- The call `afero.WriteFile(fs, filename, data, perm)`: opens the file with
`O_WRONLY|O_CREATE|O_TRUNC`, writes the data and closes it. An existing file
is truncated and keeps its permission bits; a new file is created in an
existing directory with the bits asked for. -/
def Fs.WriteFile (fs : Fs) (filename : String) (data : String) (perm : Nat) :
    Option GoError × Fs :=
  if filename ∈ fs.dirs then (some (pathError "open" filename Errno.EISDIR), fs)
  else
    match fs.file filename with
    | some old =>
      (none, { fs with files := (filename, { data := data, perm := old.perm }) ::
        fs.files.filter (fun kv => kv.1 != filename) })
    | none =>
      if (fs.file (Dir filename)).isSome then
        (some (pathError "open" filename Errno.ENOTDIR), fs)
      else if Dir filename ∉ fs.dirs then
        (some (pathError "open" filename Errno.ENOENT), fs)
      else (none, { fs with files := (filename, { data := data, perm := perm }) :: fs.files })

/-- What the writer takes from outside `vsa.go`: the JSON encoder
`json.MarshalIndent`, the value of the environment variable `TMPDIR`, the
texts `nextRandom()` yields for the successive attempts of one `afero.TempDir`
call, and how the verb `%s` shows a value of the source-locator type. -/
structure Runtime (ρ κ : Type) where
  MarshalIndent : Predicate ρ κ → String → String → String × Option GoError
  TMPDIR : String
  nextRandom : Nat → String
  sprintSource : κ → String

/-- The function `os.TempDir()` on Unix: `$TMPDIR`, or `/tmp` when that is
empty. -/
def osTempDir {ρ κ : Type} (rt : Runtime ρ κ) : String :=
  if rt.TMPDIR = "" then "/tmp" else rt.TMPDIR

/-- The loop of `afero.TempDir`: up to `fuel` more attempts, the next one being
attempt number `i`; `err` is the error of the attempt before. An attempt whose
name is taken is followed by the next one, any other outcome ends the loop. -/
def tempDirLoop {ρ κ : Type} (rt : Runtime ρ κ) (dir pfx : String) :
    Nat → Nat → Option GoError → Fs → (String × Option GoError) × Fs
  | 0, _, err, fs => (("", err), fs)
  | fuel + 1, i, _, fs =>
    let try_ := Join dir (pfx ++ rt.nextRandom i)
    match fs.Mkdir try_ 0o700 with
    | (some Errno.EEXIST, fs) =>
      tempDirLoop rt dir pfx fuel (i + 1) (some (pathError "mkdir" try_ Errno.EEXIST)) fs
    | (some e, fs) => (("", some (pathError "mkdir" try_ e)), fs)
    | (none, fs) => ((try_, none), fs)

/-- The function `afero.TempDir(fs, dir, prefix)`: creates a new directory in
`dir` (in `os.TempDir()` when `dir` is empty) whose name begins with the
prefix, and returns its path. -/
def TempDir {ρ κ : Type} (rt : Runtime ρ κ) (fs : Fs) (dir pfx : String) :
    (String × Option GoError) × Fs :=
  let dir := if dir = "" then osTempDir rt else dir
  tempDirLoop rt dir pfx 10000 0 none fs

/-- The text the verb `%s` prints for a map entry. -/
def sprintS {ρ κ : Type} (rt : Runtime ρ κ) : Option (Value κ) → String
  | some (Value.str s) => s
  | some (Value.source x) => rt.sprintSource x
  | none => "%!s(<nil>)"

/-- WritePredicate writes the Predicate as a JSON file to a temp directory and
returns the path. -/
def Writer.WritePredicate {ρ κ : Type} (w : Writer) (rt : Runtime ρ κ)
    (predicate : Predicate ρ κ) (fs : Fs) : (String × Option GoError) × Fs :=
  -- Serialize with indent
  match rt.MarshalIndent predicate "" "  " with
  | (_, some err) => (("", some (GoError.wrapf "failed to marshal VSA predicate" err)), fs)
  | (data, none) =>
    -- Create temp directory
    match TempDir rt fs "" w.TempDirPrefix with
    | ((_, some err), fs) =>
      (("", some (GoError.wrapf "failed to create temp directory" err)), fs)
    | ((tempDir, none), fs) =>
      -- Write to file
      let filename := "vsa-" ++ sprintS rt (predicate.Component.index "name") ++ ".json"
      let filepath := Join tempDir filename
      match fs.WriteFile filepath data w.FilePerm with
      | (some err, fs) =>
        (("", some (GoError.wrapf "failed to write VSA predicate to file" err)), fs)
      | (none, fs) => ((filepath, none), fs)

/-! ## Service -/

/-- Service encapsulates all VSA processing logic for both components and
snapshots. The `fs` field of the Go struct is part of the state. -/
structure Service (Sg : Type) where
  signer : Sg

/-- The functions the service calls that are declared outside
`vsa.go` and `service.go`, as transformers of the state `σ` (filesystem,
signer backend, whatever they touch). Each returns what its Go counterpart
returns.

`GenerateAndWriteSnapshotVSA ctx report` stands for
`GenerateAndWriteVSA(ctx, applicationsnapshot.NewSnapshotVSAGenerator(report), w)`
with `w` the `applicationsnapshot.NewSnapshotVSAWriter()` whose `FS` is the
service's. -/
structure Collaborators (σ ρ κ α Sg Ctx : Type) where
  GenerateAndWriteVSA : Ctx → Generator ρ κ → Writer → σ → (String × Option GoError) × σ
  GenerateAndWriteSnapshotVSA : Ctx → Report ρ κ → σ → (String × Option GoError) × σ
  GetVSAPredicateDigest : String → σ → (String × Option GoError) × σ
  NewAttestor : String → String → String → Sg → σ → (α × Option GoError) × σ
  AttestVSA : Ctx → α → σ → (String × Option GoError) × σ

/-- One call made while the service runs, in the order of execution. A call
of a collaborator or of a lookup function is recorded when it returns, with
its arguments and what it returned; a call of one of the service's own
methods is recorded on entry, with its arguments. -/
inductive Event (ρ κ α : Type) where
  | getGitURL (comp : Component ρ κ) (ret : String)
  | getDigest (comp : Component ρ κ) (ret : String × Option GoError)
  | processComponentVSA (report : Report ρ κ) (comp : Component ρ κ) (gitURL digest : String)
  | generateAndWriteVSA (g : Generator ρ κ) (w : Writer) (ret : String × Option GoError)
  | newAttestor (path gitURL digest : String) (ret : α × Option GoError)
  | attestVSA (a : α) (ret : String × Option GoError)
  | processSnapshotVSA (report : Report ρ κ)
  | generateAndWriteSnapshotVSA (report : Report ρ κ) (ret : String × Option GoError)
  | getVSAPredicateDigest (path : String) (ret : String × Option GoError)
  deriving DecidableEq

/-- The state the service runs in: the state of the outside world and the
calls made so far, oldest first. -/
structure World (σ ρ κ α : Type) where
  st : σ
  trace : List (Event ρ κ α)
  deriving DecidableEq

/-- Entering one of the service's own methods. -/
def World.enter {σ ρ κ α : Type} (w : World σ ρ κ α) (ev : Event ρ κ α) : World σ ρ κ α :=
  { w with trace := w.trace ++ [ev] }

/-- Running an outside function on the state and recording the call. -/
def World.call {σ ρ κ α β : Type} (w : World σ ρ κ α) (ev : β → Event ρ κ α)
    (f : σ → β × σ) : β × World σ ρ κ α :=
  let r := f w.st
  (r.1, { st := r.2, trace := w.trace ++ [ev r.1] })

/-- ProcessComponentVSA processes VSA generation, writing, and attestation for
a single component. -/
def Service.ProcessComponentVSA {σ ρ κ α Sg Ctx : Type} (s : Service Sg)
    (d : Collaborators σ ρ κ α Sg Ctx) (ctx : Ctx) (report : Report ρ κ)
    (comp : Component ρ κ) (gitURL digest : String) (w : World σ ρ κ α) :
    (String × Option GoError) × World σ ρ κ α :=
  let w := w.enter (Event.processComponentVSA report comp gitURL digest)
  let generator := NewGenerator report comp
  let writer : Writer := { TempDirPrefix := "vsa-", FilePerm := 0o600 }
  -- Generate and write VSA predicate
  match w.call (Event.generateAndWriteVSA generator writer)
      (d.GenerateAndWriteVSA ctx generator writer) with
  | ((_, some err), w) =>
    (("", some (GoError.wrapf "failed to generate and write component VSA" err)), w)
  | ((writtenPath, none), w) =>
    -- Create attestor and attest VSA
    match w.call (Event.newAttestor writtenPath gitURL digest)
        (d.NewAttestor writtenPath gitURL digest s.signer) with
    | ((_, some err), w) =>
      (("", some (GoError.wrapf "failed to create component attestor" err)), w)
    | ((attestor, none), w) =>
      match w.call (Event.attestVSA attestor) (d.AttestVSA ctx attestor) with
      | ((_, some err), w) =>
        (("", some (GoError.wrapf "failed to attest component VSA" err)), w)
      | ((envelopePath, none), w) => ((envelopePath, none), w)

/-- ProcessSnapshotVSA processes VSA generation, writing, and attestation for
the application snapshot. -/
def Service.ProcessSnapshotVSA {σ ρ κ α Sg Ctx : Type} (s : Service Sg)
    (d : Collaborators σ ρ κ α Sg Ctx) (ctx : Ctx) (report : Report ρ κ)
    (w : World σ ρ κ α) : (String × Option GoError) × World σ ρ κ α :=
  let w := w.enter (Event.processSnapshotVSA report)
  -- Generate and write VSA predicate
  match w.call (Event.generateAndWriteSnapshotVSA report)
      (d.GenerateAndWriteSnapshotVSA ctx report) with
  | ((_, some err), w) =>
    (("", some (GoError.wrapf "failed to generate and write snapshot VSA" err)), w)
  | ((writtenPath, none), w) =>
    -- Calculate digest for the snapshot VSA predicate
    match w.call (Event.getVSAPredicateDigest writtenPath)
        (d.GetVSAPredicateDigest writtenPath) with
    | ((_, some err), w) =>
      (("", some (GoError.wrapf "failed to calculate digest for snapshot VSA" err)), w)
    | ((digest, none), w) =>
      -- Create attestor and attest VSA
      match w.call (Event.newAttestor writtenPath "" digest)
          (d.NewAttestor writtenPath "" digest s.signer) with
      | ((_, some err), w) =>
        (("", some (GoError.wrapf "failed to create snapshot attestor" err)), w)
      | ((attestor, none), w) =>
        match w.call (Event.attestVSA attestor) (d.AttestVSA ctx attestor) with
        | ((_, some err), w) =>
          (("", some (GoError.wrapf "failed to attest snapshot VSA" err)), w)
        | ((envelopePath, none), w) => ((envelopePath, none), w)

/-- The `for _, comp := range report.Components` loop of `ProcessAllVSAs`,
run over the components still to visit. -/
def Service.processComponents {σ ρ κ α Sg Ctx : Type} (s : Service Sg)
    (d : Collaborators σ ρ κ α Sg Ctx) (ctx : Ctx) (report : Report ρ κ)
    (getGitURL : Component ρ κ → σ → String × σ)
    (getDigest : Component ρ κ → σ → (String × Option GoError) × σ) :
    List (Component ρ κ) → World σ ρ κ α → World σ ρ κ α
  | [], w => w
  | comp :: rest, w =>
    match w.call (Event.getGitURL comp) (getGitURL comp) with
    | (gitURL, w) =>
      match w.call (Event.getDigest comp) (getDigest comp) with
      | ((_, some _), w) =>
        -- the digest lookup failed: continue
        s.processComponents d ctx report getGitURL getDigest rest w
      | ((digest, none), w) =>
        match s.ProcessComponentVSA d ctx report comp gitURL digest w with
        | ((_, some _), w) =>
          -- the component failed: continue
          s.processComponents d ctx report getGitURL getDigest rest w
        | ((_, none), w) => s.processComponents d ctx report getGitURL getDigest rest w

/-- ProcessAllVSAs processes VSAs for all components and the snapshot. -/
def Service.ProcessAllVSAs {σ ρ κ α Sg Ctx : Type} (s : Service Sg)
    (d : Collaborators σ ρ κ α Sg Ctx) (ctx : Ctx) (report : Report ρ κ)
    (getGitURL : Component ρ κ → σ → String × σ)
    (getDigest : Component ρ κ → σ → (String × Option GoError) × σ)
    (w : World σ ρ κ α) : Option GoError × World σ ρ κ α :=
  -- Process VSAs for all components
  let w := s.processComponents d ctx report getGitURL getDigest report.Components w
  -- Process VSA for the snapshot
  match s.ProcessSnapshotVSA d ctx report w with
  | ((_, some err), w) => (some err, w)
  | ((_, none), w) => (none, w)

/-! ## Reading a trace -/

/-- The component of a `getGitURL` call. -/
def Event.gitURLCall {ρ κ α : Type} : Event ρ κ α → Option (Component ρ κ)
  | .getGitURL comp _ => some comp
  | _ => none

/-- The component of a `getDigest` call. -/
def Event.digestCall {ρ κ α : Type} : Event ρ κ α → Option (Component ρ κ)
  | .getDigest comp _ => some comp
  | _ => none

/-- The two lookup functions. -/
inductive Lookup where
  | gitURL
  | digest
  deriving DecidableEq

/-- Which lookup a call is, and for which component. -/
def Event.lookupCall {ρ κ α : Type} : Event ρ κ α → Option (Lookup × Component ρ κ)
  | .getGitURL comp _ => some (Lookup.gitURL, comp)
  | .getDigest comp _ => some (Lookup.digest, comp)
  | _ => none

/-- Calls made by the loop body itself: the two lookups and
`ProcessComponentVSA`. -/
def Event.isLoopCall {ρ κ α : Type} : Event ρ κ α → Bool
  | .getGitURL _ _ => true
  | .getDigest _ _ => true
  | .processComponentVSA _ _ _ _ => true
  | _ => false

/-- Entries of `ProcessSnapshotVSA`. -/
def Event.isSnapshotEntry {ρ κ α : Type} : Event ρ κ α → Bool
  | .processSnapshotVSA _ => true
  | _ => false

/-- Calls made by a stage of `ProcessComponentVSA` or `ProcessSnapshotVSA`. -/
def Event.isStageCall {ρ κ α : Type} : Event ρ κ α → Bool
  | .generateAndWriteVSA _ _ _ => true
  | .newAttestor _ _ _ _ => true
  | .attestVSA _ _ => true
  | .generateAndWriteSnapshotVSA _ _ => true
  | .getVSAPredicateDigest _ _ => true
  | _ => false

/-- Entries of `ProcessComponentVSA`. -/
def Event.isComponentEntry {ρ κ α : Type} : Event ρ κ α → Bool
  | .processComponentVSA _ _ _ _ => true
  | _ => false

/-- Calls of `getDigest` that returned the nil error. -/
def Event.isDigestFound {ρ κ α : Type} : Event ρ κ α → Bool
  | .getDigest _ (_, none) => true
  | _ => false

/-- The two lookup calls of a component, in the order the loop body makes
them. -/
def lookupsOf {ρ κ : Type} (comp : Component ρ κ) : List (Lookup × Component ρ κ) :=
  [(Lookup.gitURL, comp), (Lookup.digest, comp)]

/-- What the loop body does for one component, given what its two lookups
returned: both lookups, then `ProcessComponentVSA` with the values looked up
when the digest lookup returned no error. -/
def loopCalls {ρ κ α : Type} (report : Report ρ κ)
    (cr : Component ρ κ × String × String × Option GoError) : List (Event ρ κ α) :=
  [Event.getGitURL cr.1 cr.2.1, Event.getDigest cr.1 cr.2.2] ++
    (match cr.2.2.2 with
     | none => [Event.processComponentVSA report cr.1 cr.2.1 cr.2.2.1]
     | some _ => [])

/-! ## Cleaned paths -/

/-- An element that `filepath.Clean` keeps as it is: not empty, free of
separators, and neither `.` nor `..`. -/
def PlainElement (el : List Char) : Prop :=
  el ≠ [] ∧ '/' ∉ el ∧ el ≠ ['.'] ∧ el ≠ ['.', '.']

/-- The stacks `filepath.Clean` builds, last element first: no element is
empty, holds a separator or is `.`; a `..` is kept only in a path that is not
rooted, and only on top of nothing or of another `..`. -/
def StackOk (rooted : Bool) : List (List Char) → Prop
  | [] => True
  | top :: below =>
    top ≠ [] ∧ '/' ∉ top ∧ top ≠ ['.'] ∧
    (top = ['.', '.'] → rooted = false ∧ ∀ b ∈ below.head?, b = ['.', '.']) ∧
    StackOk rooted below

/-- The path `filepath.Clean` writes for a stack. -/
def cleanOut (rooted : Bool) (stack : List (List Char)) : List Char :=
  if rooted then '/' :: joinSlash stack.reverse
  else if stack = [] then ['.']
  else joinSlash stack.reverse

/-- A filesystem state in which every file lies in a directory. -/
def Fs.WellFormed (fs : Fs) : Prop := ∀ kv ∈ fs.files, Dir kv.1 ∈ fs.dirs

/-! ## A small scenario

Collaborators over a state that counts the calls made: generation fails for
the component named `bad`, the attestor cannot be constructed without a digest,
signing fails for the git URL `unsigned`; the snapshot stages succeed. -/

/-- Collaborators of the scenario. -/
def demoCollaborators : Collaborators Nat String String String Unit Unit where
  GenerateAndWriteVSA := fun _ g _ n =>
    if g.Component.Name = "bad" then (("", some (GoError.errorf "disk full")), n + 1)
    else (("/tmp/vsa-" ++ toString n ++ "/vsa-" ++ g.Component.Name ++ ".json", none), n + 1)
  GenerateAndWriteSnapshotVSA := fun _ _ n => (("/tmp/snapshot-vsa.json", none), n + 1)
  GetVSAPredicateDigest := fun _ n => (("sha256:0", none), n + 1)
  NewAttestor := fun path gitURL digest _ n =>
    if digest = "" then (("", some (GoError.errorf "no digest")), n + 1)
    else ((path ++ "|" ++ gitURL ++ "|" ++ digest, none), n + 1)
  AttestVSA := fun _ a n =>
    if contains a "|unsigned|" then (("", some (GoError.errorf "signer unavailable")), n + 1)
    else ((a ++ ".intoto.jsonl", none), n + 1)

/-- A component of the scenario. -/
def demoComponent (name : String) : Component String String :=
  { Name := name, ContainerImage := "registry/" ++ name, Source := "git", Violations := [],
    Warnings := [], Successes := [], Success := true }

/-- The report of the scenario. -/
def demoReport : Report String String :=
  { Components := [demoComponent "img1", demoComponent "bad", demoComponent "img3"],
    Policy := { Name := "my-policy" } }

/-- The initial state of the scenario. -/
def demoWorld : World Nat String String String := { st := 0, trace := [] }

/-- The git URL lookup of the scenario. -/
def demoGetGitURL (comp : Component String String) (n : Nat) : String × Nat :=
  ("https://git/" ++ comp.Name, n + 1)

/-- The digest lookup of the scenario: it fails for the component `img3`. -/
def demoGetDigest (comp : Component String String) (n : Nat) :
    (String × Option GoError) × Nat :=
  if comp.Name = "img3" then (("", some (GoError.errorf "no such image")), n + 1)
  else (("sha256:" ++ comp.Name, none), n + 1)

/-- The runtime of the scenario: an encoder that writes the image reference
only, no `TMPDIR`, and the random texts `123`, `456`, `789`, `789`, ... -/
def demoRuntime : Runtime String String where
  MarshalIndent := fun p pfx indent =>
    (pfx ++ "\x7b\n" ++ pfx ++ indent ++ "\"imageRef\": \"" ++ p.ImageRef ++ "\"\n" ++
      pfx ++ "\x7d", none)
  TMPDIR := ""
  nextRandom := fun i => ["123", "456"].getD i "789"
  sprintSource := id

/-- A filesystem with the root and `/tmp`, and no file. -/
def demoFs : Fs := { dirs := ["/", "/tmp"], files := [] }

/-- A filesystem with the root and `/tmp`, and one file in `/tmp`. -/
def demoFsWithFile : Fs :=
  { dirs := ["/", "/tmp"], files := [("/tmp/x.json", { data := "old", perm := 0o644 })] }

/-! ## Theorems: generator -/

/-- C1: the rule results of the generated predicate are the violations, then
the warnings, then the successes, each group in its original order, and
nothing else; the generation never fails. -/
theorem generatePredicate_ruleResults {ρ κ Ctx : Type} (report : Report ρ κ)
    (comp : Component ρ κ) (ctx : Ctx) (now : String) :
    ∃ p : Predicate ρ κ,
      (NewGenerator report comp).GeneratePredicate ctx now = Except.ok p ∧
      p.RuleResults = comp.Violations ++ comp.Warnings ++ comp.Successes ∧
      p.RuleResults.length =
        comp.Violations.length + comp.Warnings.length + comp.Successes.length ∧
      (∀ i, i < comp.Violations.length → p.RuleResults[i]? = comp.Violations[i]?) ∧
      (∀ i, i < comp.Warnings.length →
        p.RuleResults[comp.Violations.length + i]? = comp.Warnings[i]?) ∧
      (∀ i, i < comp.Successes.length →
        p.RuleResults[comp.Violations.length + comp.Warnings.length + i]? =
          comp.Successes[i]?) := by
  refine ⟨_, rfl, ?_, ?_, ?_, ?_, ?_⟩
  · simp [NewGenerator]
  · simp [NewGenerator, Nat.add_assoc]
  · intro i hi
    simp [NewGenerator, List.getElem?_append_left, hi]
  · intro i hi
    have h1 : comp.Violations.length + i < (comp.Violations ++ comp.Warnings).length := by
      simp [hi]
    simp only [NewGenerator, List.nil_append]
    rw [List.getElem?_append_left h1, List.getElem?_append_right (Nat.le_add_right _ _)]
    simp
  · intro i _
    simp only [NewGenerator, List.nil_append]
    rw [List.getElem?_append_right (by simp)]
    simp

/-- C2: the validation result of the generated predicate is `passed` exactly
when the component's success flag is set and `failed` otherwise; two
components with the same flag get the same validation result, whatever their
violations, the report, the context and the time. -/
theorem generatePredicate_validationResult {ρ κ Ctx : Type} (report : Report ρ κ)
    (comp : Component ρ κ) (ctx : Ctx) (now : String) :
    ∃ p : Predicate ρ κ,
      (NewGenerator report comp).GeneratePredicate ctx now = Except.ok p ∧
      (p.ValidationResult = "passed" ↔ comp.Success = true) ∧
      (p.ValidationResult = "failed" ↔ comp.Success = false) ∧
      p.ValidationResult = (if comp.Success then "passed" else "failed") ∧
      ∀ (report2 : Report ρ κ) (comp2 : Component ρ κ) (ctx2 : Ctx) (now2 : String),
        comp2.Success = comp.Success →
        ∃ p2 : Predicate ρ κ,
          (NewGenerator report2 comp2).GeneratePredicate ctx2 now2 = Except.ok p2 ∧
          p2.ValidationResult = p.ValidationResult := by
  refine ⟨_, rfl, ?_, ?_, ?_, ?_⟩
  · cases h : comp.Success <;> simp [NewGenerator, h]
  · cases h : comp.Success <;> simp [NewGenerator, h]
  · simp [NewGenerator]
  · intro report2 comp2 ctx2 now2 h
    refine ⟨_, rfl, ?_⟩
    simp [NewGenerator, h]

/-! ## Theorems: uploaders -/

/-- C9: the OCI uploader and the Rekor uploader return, for every context,
envelope and location, an empty deposited location and a non-nil error whose
message contains `not implemented`. -/
theorem oci_rekor_uploaders_not_implemented {Ctx Sig : Type} (ctx : Ctx) (att : Sig)
    (location : String) :
    (∃ e : GoError, OCIUploader ctx att location = ("", some e) ∧
        contains e.Error "not implemented") ∧
    (∃ e : GoError, RekorUploader ctx att location = ("", some e) ∧
        contains e.Error "not implemented") ∧
    (OCIUploader ctx att location).2 ≠ none ∧
    (RekorUploader ctx att location).2 ≠ none := by
  refine ⟨⟨_, rfl, ?_⟩, ⟨_, rfl, ?_⟩, ?_, ?_⟩
  · decide
  · decide
  · simp [OCIUploader]
  · simp [RekorUploader]

/-- C10: the no-op uploader returns, for every context, envelope and
location, the empty deposited location and the nil error. -/
theorem noopUploader_empty_nil {Ctx Sig : Type} (ctx : Ctx) (att : Sig) (location : String) :
    NoopUploader ctx att location = ("", none) := rfl

/-! ## Theorems: service -/

section ServiceLemmas

variable {σ ρ κ α Sg Ctx : Type}

theorem Event.not_loopCall_of_stageCall (e : Event ρ κ α) (h : e.isStageCall = true) :
    e.isLoopCall = false := by
  cases e <;> simp_all [Event.isStageCall, Event.isLoopCall]

theorem Event.not_snapshotEntry_of_stageCall (e : Event ρ κ α) (h : e.isStageCall = true) :
    e.isSnapshotEntry = false := by
  cases e <;> simp_all [Event.isStageCall, Event.isSnapshotEntry]

/-- The calls of one run of `ProcessComponentVSA`: its entry, then stage calls
only. -/
theorem processComponentVSA_trace (s : Service Sg) (d : Collaborators σ ρ κ α Sg Ctx)
    (ctx : Ctx) (report : Report ρ κ) (comp : Component ρ κ) (gitURL digest : String)
    (w : World σ ρ κ α) :
    ∃ evs : List (Event ρ κ α),
      (s.ProcessComponentVSA d ctx report comp gitURL digest w).2.trace =
        w.trace ++ Event.processComponentVSA report comp gitURL digest :: evs ∧
      ∀ e ∈ evs, e.isStageCall = true := by
  simp only [Service.ProcessComponentVSA, World.call, World.enter]
  rcases h1 : d.GenerateAndWriteVSA ctx (NewGenerator report comp)
      { TempDirPrefix := "vsa-", FilePerm := 0o600 } w.st with ⟨⟨p1, e1⟩, st1⟩
  cases e1 with
  | some err => exact ⟨_, by simp only [List.append_assoc]; rfl, by simp [Event.isStageCall]⟩
  | none =>
    simp only []
    rcases h2 : d.NewAttestor p1 gitURL digest s.signer st1 with ⟨⟨a2, e2⟩, st2⟩
    cases e2 with
    | some err => exact ⟨_, by simp only [List.append_assoc]; rfl, by simp [Event.isStageCall]⟩
    | none =>
      simp only []
      rcases h3 : d.AttestVSA ctx a2 st2 with ⟨⟨p3, e3⟩, st3⟩
      cases e3 with
      | some err => exact ⟨_, by simp only [List.append_assoc]; rfl, by simp [Event.isStageCall]⟩
      | none => exact ⟨_, by simp only [List.append_assoc]; rfl, by simp [Event.isStageCall]⟩

/-- The calls of one run of `ProcessSnapshotVSA`: its entry, then stage calls
only. -/
theorem processSnapshotVSA_trace (s : Service Sg) (d : Collaborators σ ρ κ α Sg Ctx)
    (ctx : Ctx) (report : Report ρ κ) (w : World σ ρ κ α) :
    ∃ evs : List (Event ρ κ α),
      (s.ProcessSnapshotVSA d ctx report w).2.trace =
        w.trace ++ Event.processSnapshotVSA report :: evs ∧
      ∀ e ∈ evs, e.isStageCall = true := by
  simp only [Service.ProcessSnapshotVSA, World.call, World.enter]
  rcases h1 : d.GenerateAndWriteSnapshotVSA ctx report w.st with ⟨⟨p1, e1⟩, st1⟩
  cases e1 with
  | some err =>
    exact ⟨_, by simp only [List.append_assoc]; rfl, by simp [Event.isStageCall]⟩
  | none =>
    simp only []
    rcases h2 : d.GetVSAPredicateDigest p1 st1 with ⟨⟨dg, e2⟩, st2⟩
    cases e2 with
    | some err =>
      exact ⟨_, by simp only [List.append_assoc]; rfl, by simp [Event.isStageCall]⟩
    | none =>
      simp only []
      rcases h3 : d.NewAttestor p1 "" dg s.signer st2 with ⟨⟨a3, e3⟩, st3⟩
      cases e3 with
      | some err =>
        exact ⟨_, by simp only [List.append_assoc]; rfl, by simp [Event.isStageCall]⟩
      | none =>
        simp only []
        rcases h4 : d.AttestVSA ctx a3 st3 with ⟨⟨p4, e4⟩, st4⟩
        cases e4 with
        | some err =>
          exact ⟨_, by simp only [List.append_assoc]; rfl, by simp [Event.isStageCall]⟩
        | none =>
          exact ⟨_, by simp only [List.append_assoc]; rfl, by simp [Event.isStageCall]⟩

theorem filter_loopCall_of_stageCalls (evs : List (Event ρ κ α))
    (h : ∀ e ∈ evs, e.isStageCall = true) : evs.filter Event.isLoopCall = [] := by
  rw [List.filter_eq_nil_iff]
  intro e he
  simp [Event.not_loopCall_of_stageCall e (h e he)]

/-- The calls of the loop over the components: seen through the calls of the
loop body, they are the body's calls for each component in turn; no entry of
`ProcessSnapshotVSA` is among them. -/
theorem processComponents_trace (s : Service Sg) (d : Collaborators σ ρ κ α Sg Ctx)
    (ctx : Ctx) (report : Report ρ κ)
    (getGitURL : Component ρ κ → σ → String × σ)
    (getDigest : Component ρ κ → σ → (String × Option GoError) × σ) :
    ∀ (comps : List (Component ρ κ)) (w : World σ ρ κ α),
    ∃ (evs : List (Event ρ κ α)) (rs : List (String × String × Option GoError)),
      (s.processComponents d ctx report getGitURL getDigest comps w).trace = w.trace ++ evs ∧
      rs.length = comps.length ∧
      evs.filter Event.isLoopCall = (comps.zip rs).flatMap (loopCalls report) ∧
      ∀ e ∈ evs, e.isSnapshotEntry = false := by
  intro comps
  induction comps with
  | nil => intro w; exact ⟨[], [], by simp [Service.processComponents], rfl, rfl, by simp⟩
  | cons comp rest ih =>
    intro w
    simp only [Service.processComponents, World.call]
    rcases hu : getGitURL comp w.st with ⟨u, st1⟩
    rcases hd : getDigest comp st1 with ⟨⟨dg, e⟩, st2⟩
    cases e with
    | some err =>
      simp only []
      obtain ⟨evs, rs, h1, h2, h3, h4⟩ := ih
        { st := st2, trace := w.trace ++ [Event.getGitURL comp u] ++
            [Event.getDigest comp (dg, some err)] }
      refine ⟨Event.getGitURL comp u :: Event.getDigest comp (dg, some err) :: evs,
        (u, dg, some err) :: rs, ?_, ?_, ?_, ?_⟩
      · rw [h1]; simp
      · simp [h2]
      · simp [List.filter_cons, Event.isLoopCall, h3, loopCalls]
      · intro e he
        simp only [List.mem_cons] at he
        rcases he with rfl | rfl | he
        · rfl
        · rfl
        · exact h4 e he
    | none =>
      simp only []
      obtain ⟨evsA, hA1, hA2⟩ := processComponentVSA_trace s d ctx report comp u dg
        { st := st2, trace := w.trace ++ [Event.getGitURL comp u] ++
            [Event.getDigest comp (dg, none)] }
      rcases hP : s.ProcessComponentVSA d ctx report comp u dg
        { st := st2, trace := w.trace ++ [Event.getGitURL comp u] ++
            [Event.getDigest comp (dg, none)] } with ⟨⟨p, e2⟩, w3⟩
      rw [hP] at hA1
      simp only at hA1
      obtain ⟨evs, rs, h1, h2, h3, h4⟩ := ih w3
      have key : ∃ (evs0 : List (Event ρ κ α)) (rs0 : List (String × String × Option GoError)),
          (s.processComponents d ctx report getGitURL getDigest rest w3).trace =
            w.trace ++ evs0 ∧
          rs0.length = (comp :: rest).length ∧
          evs0.filter Event.isLoopCall = ((comp :: rest).zip rs0).flatMap (loopCalls report) ∧
          ∀ e ∈ evs0, e.isSnapshotEntry = false := by
        refine ⟨Event.getGitURL comp u :: Event.getDigest comp (dg, none) ::
            Event.processComponentVSA report comp u dg :: (evsA ++ evs),
          (u, dg, none) :: rs, ?_, ?_, ?_, ?_⟩
        · rw [h1, hA1]; simp
        · simp [h2]
        · simp [List.filter_cons, Event.isLoopCall, h3, loopCalls,
            filter_loopCall_of_stageCalls evsA hA2]
        · intro e he
          simp only [List.mem_cons, List.mem_append] at he
          rcases he with rfl | rfl | rfl | he | he
          · rfl
          · rfl
          · rfl
          · exact Event.not_snapshotEntry_of_stageCall e (hA2 e he)
          · exact h4 e he
      cases e2 with
      | some err => exact key
      | none => exact key

theorem filterMap_filter_loopCall {β : Type} (f : Event ρ κ α → Option β)
    (hf : ∀ e, e.isLoopCall = false → f e = none) (evs : List (Event ρ κ α)) :
    (evs.filter Event.isLoopCall).filterMap f = evs.filterMap f := by
  induction evs with
  | nil => rfl
  | cons e evs ih =>
    cases h : e.isLoopCall with
    | true => simp [List.filter_cons, h, List.filterMap_cons, ih]
    | false => simp [List.filter_cons, h, List.filterMap_cons, ih, hf e h]

theorem countP_filter_loopCall (q : Event ρ κ α → Bool)
    (hq : ∀ e, e.isLoopCall = false → q e = false) (evs : List (Event ρ κ α)) :
    (evs.filter Event.isLoopCall).countP q = evs.countP q := by
  induction evs with
  | nil => rfl
  | cons e evs ih =>
    cases h : e.isLoopCall with
    | true => simp [List.filter_cons, h, List.countP_cons, ih]
    | false => simp [List.filter_cons, h, List.countP_cons, ih, hq e h]

theorem gitURLCall_loopCalls (report : Report ρ κ) :
    ∀ (comps : List (Component ρ κ)) (rs : List (String × String × Option GoError)),
      rs.length = comps.length →
      (((comps.zip rs).flatMap (loopCalls report)).filterMap
        (Event.gitURLCall : Event ρ κ α → _)) = comps := by
  intro comps
  induction comps with
  | nil => intro rs _; simp
  | cons c comps ih =>
    intro rs h
    cases rs with
    | nil => simp at h
    | cons r rs =>
      have h2 : rs.length = comps.length := by simpa using h
      rcases r with ⟨u, dg, e⟩
      cases e <;> simp [loopCalls, Event.gitURLCall, List.filterMap_cons, ih rs h2]

theorem digestCall_loopCalls (report : Report ρ κ) :
    ∀ (comps : List (Component ρ κ)) (rs : List (String × String × Option GoError)),
      rs.length = comps.length →
      (((comps.zip rs).flatMap (loopCalls report)).filterMap
        (Event.digestCall : Event ρ κ α → _)) = comps := by
  intro comps
  induction comps with
  | nil => intro rs _; simp
  | cons c comps ih =>
    intro rs h
    cases rs with
    | nil => simp at h
    | cons r rs =>
      have h2 : rs.length = comps.length := by simpa using h
      rcases r with ⟨u, dg, e⟩
      cases e <;> simp [loopCalls, Event.digestCall, List.filterMap_cons, ih rs h2]

theorem lookupCall_loopCalls (report : Report ρ κ) :
    ∀ (comps : List (Component ρ κ)) (rs : List (String × String × Option GoError)),
      rs.length = comps.length →
      (((comps.zip rs).flatMap (loopCalls report)).filterMap
        (Event.lookupCall : Event ρ κ α → _)) = comps.flatMap lookupsOf := by
  intro comps
  induction comps with
  | nil => intro rs _; simp
  | cons c comps ih =>
    intro rs h
    cases rs with
    | nil => simp at h
    | cons r rs =>
      have h2 : rs.length = comps.length := by simpa using h
      rcases r with ⟨u, dg, e⟩
      cases e <;>
        simp [loopCalls, Event.lookupCall, List.filterMap_cons, ih rs h2, lookupsOf]

theorem count_entries_loopCalls (report : Report ρ κ) :
    ∀ (comps : List (Component ρ κ)) (rs : List (String × String × Option GoError)),
      (((comps.zip rs).flatMap (loopCalls report)).countP
        (Event.isComponentEntry : Event ρ κ α → _)) =
      (((comps.zip rs).flatMap (loopCalls report)).countP
        (Event.isDigestFound : Event ρ κ α → _)) := by
  intro comps
  induction comps with
  | nil => intro rs; simp
  | cons c comps ih =>
    intro rs
    cases rs with
    | nil => simp
    | cons r rs =>
      rcases r with ⟨u, dg, e⟩
      cases e <;>
        simp [loopCalls, Event.isComponentEntry, Event.isDigestFound, List.countP_cons,
          ih rs]

/-- The calls of one run of `ProcessAllVSAs`: those of the loop, then the
entry of `ProcessSnapshotVSA`, then stage calls only. -/
theorem processAllVSAs_trace (s : Service Sg) (d : Collaborators σ ρ κ α Sg Ctx)
    (ctx : Ctx) (report : Report ρ κ)
    (getGitURL : Component ρ κ → σ → String × σ)
    (getDigest : Component ρ κ → σ → (String × Option GoError) × σ)
    (w : World σ ρ κ α) :
    ∃ (loopEvs snapEvs : List (Event ρ κ α)) (rs : List (String × String × Option GoError)),
      (s.processComponents d ctx report getGitURL getDigest report.Components w).trace =
        w.trace ++ loopEvs ∧
      (s.ProcessAllVSAs d ctx report getGitURL getDigest w).2.trace =
        w.trace ++ (loopEvs ++ Event.processSnapshotVSA report :: snapEvs) ∧
      rs.length = report.Components.length ∧
      loopEvs.filter Event.isLoopCall =
        (report.Components.zip rs).flatMap (loopCalls report) ∧
      (∀ e ∈ loopEvs, e.isSnapshotEntry = false) ∧
      (∀ e ∈ snapEvs, e.isStageCall = true) := by
  obtain ⟨loopEvs, rs, h1, h2, h3, h4⟩ :=
    processComponents_trace s d ctx report getGitURL getDigest report.Components w
  obtain ⟨snapEvs, h5, h6⟩ := processSnapshotVSA_trace s d ctx report
    (s.processComponents d ctx report getGitURL getDigest report.Components w)
  refine ⟨loopEvs, snapEvs, rs, h1, ?_, h2, h3, h4, h6⟩
  simp only [Service.ProcessAllVSAs]
  rcases hS : s.ProcessSnapshotVSA d ctx report
    (s.processComponents d ctx report getGitURL getDigest report.Components w)
    with ⟨⟨p, e⟩, w2⟩
  rw [hS] at h5
  simp only at h5
  cases e <;> simp [h5, h1]

/-- Seen through the calls of the loop body, a run of `ProcessAllVSAs` is the
body's calls for each component of the report in turn. -/
theorem processAllVSAs_loopCalls (s : Service Sg) (d : Collaborators σ ρ κ α Sg Ctx)
    (ctx : Ctx) (report : Report ρ κ)
    (getGitURL : Component ρ κ → σ → String × σ)
    (getDigest : Component ρ κ → σ → (String × Option GoError) × σ)
    (w : World σ ρ κ α) :
    ∃ (evs : List (Event ρ κ α)) (rs : List (String × String × Option GoError)),
      (s.ProcessAllVSAs d ctx report getGitURL getDigest w).2.trace = w.trace ++ evs ∧
      rs.length = report.Components.length ∧
      evs.filter Event.isLoopCall =
        (report.Components.zip rs).flatMap (loopCalls report) ∧
      evs.countP Event.isSnapshotEntry = 1 := by
  obtain ⟨loopEvs, snapEvs, rs, _, h2, h3, h4, h5, h6⟩ :=
    processAllVSAs_trace s d ctx report getGitURL getDigest w
  refine ⟨_, rs, h2, h3, ?_, ?_⟩
  · rw [List.filter_append, h4, List.filter_cons]
    simp [Event.isLoopCall, filter_loopCall_of_stageCalls snapEvs h6]
  · rw [List.countP_append, List.countP_cons]
    have e1 : loopEvs.countP Event.isSnapshotEntry = 0 := by
      rw [List.countP_eq_zero]
      intro e he
      simp [h5 e he]
    have e2 : snapEvs.countP Event.isSnapshotEntry = 0 := by
      rw [List.countP_eq_zero]
      intro e he
      simp [Event.not_snapshotEntry_of_stageCall e (h6 e he)]
    simp [e1, e2, Event.isSnapshotEntry]

end ServiceLemmas

/-- C3: `ProcessAllVSAs` attempts every component of the report: whatever the
lookups and the collaborators return, `getGitURL` is called exactly once for
each component, in the order of the report, and so is `getDigest`; the two
lookups of a component come together, the git URL first. -/
theorem processAllVSAs_attempts_every_component {σ ρ κ α Sg Ctx : Type} (s : Service Sg)
    (d : Collaborators σ ρ κ α Sg Ctx) (ctx : Ctx) (report : Report ρ κ)
    (getGitURL : Component ρ κ → σ → String × σ)
    (getDigest : Component ρ κ → σ → (String × Option GoError) × σ)
    (w : World σ ρ κ α) :
    ∃ evs : List (Event ρ κ α),
      (s.ProcessAllVSAs d ctx report getGitURL getDigest w).2.trace = w.trace ++ evs ∧
      evs.filterMap Event.gitURLCall = report.Components ∧
      evs.filterMap Event.digestCall = report.Components ∧
      evs.filterMap Event.lookupCall = report.Components.flatMap lookupsOf := by
  obtain ⟨evs, rs, h1, h2, h3, _⟩ :=
    processAllVSAs_loopCalls s d ctx report getGitURL getDigest w
  refine ⟨evs, h1, ?_, ?_, ?_⟩
  · rw [← filterMap_filter_loopCall Event.gitURLCall
      (by intro e he; cases e <;> simp_all [Event.isLoopCall, Event.gitURLCall]) evs, h3]
    exact gitURLCall_loopCalls report _ rs h2
  · rw [← filterMap_filter_loopCall Event.digestCall
      (by intro e he; cases e <;> simp_all [Event.isLoopCall, Event.digestCall]) evs, h3]
    exact digestCall_loopCalls report _ rs h2
  · rw [← filterMap_filter_loopCall Event.lookupCall
      (by intro e he; cases e <;> simp_all [Event.isLoopCall, Event.lookupCall]) evs, h3]
    exact lookupCall_loopCalls report _ rs h2

/-- C4: `ProcessAllVSAs` enters `ProcessSnapshotVSA` exactly once, in the state
the loop over the components leaves, after both lookups of every component;
what it returns is the error `ProcessSnapshotVSA` returns, nil when that is
nil, whatever the lookups and the component stages returned. -/
theorem processAllVSAs_returns_snapshot_error {σ ρ κ α Sg Ctx : Type} (s : Service Sg)
    (d : Collaborators σ ρ κ α Sg Ctx) (ctx : Ctx) (report : Report ρ κ)
    (getGitURL : Component ρ κ → σ → String × σ)
    (getDigest : Component ρ κ → σ → (String × Option GoError) × σ)
    (w : World σ ρ κ α) :
    (s.ProcessAllVSAs d ctx report getGitURL getDigest w).1 =
      (s.ProcessSnapshotVSA d ctx report
        (s.processComponents d ctx report getGitURL getDigest report.Components w)).1.2 ∧
    (s.ProcessAllVSAs d ctx report getGitURL getDigest w).2 =
      (s.ProcessSnapshotVSA d ctx report
        (s.processComponents d ctx report getGitURL getDigest report.Components w)).2 ∧
    (∃ loopEvs snapEvs : List (Event ρ κ α),
      (s.processComponents d ctx report getGitURL getDigest report.Components w).trace =
        w.trace ++ loopEvs ∧
      (s.ProcessAllVSAs d ctx report getGitURL getDigest w).2.trace =
        w.trace ++ (loopEvs ++ Event.processSnapshotVSA report :: snapEvs) ∧
      loopEvs.filterMap Event.lookupCall = report.Components.flatMap lookupsOf ∧
      (loopEvs ++ Event.processSnapshotVSA report :: snapEvs).countP
        Event.isSnapshotEntry = 1 ∧
      (∀ e ∈ loopEvs, e.isSnapshotEntry = false) ∧
      (∀ e ∈ snapEvs, e.isStageCall = true)) ∧
    ((∀ w0 : World σ ρ κ α, (s.ProcessSnapshotVSA d ctx report w0).1.2 = none) →
      (s.ProcessAllVSAs d ctx report getGitURL getDigest w).1 = none) := by
  have hres : (s.ProcessAllVSAs d ctx report getGitURL getDigest w).1 =
      (s.ProcessSnapshotVSA d ctx report
        (s.processComponents d ctx report getGitURL getDigest report.Components w)).1.2 ∧
    (s.ProcessAllVSAs d ctx report getGitURL getDigest w).2 =
      (s.ProcessSnapshotVSA d ctx report
        (s.processComponents d ctx report getGitURL getDigest report.Components w)).2 := by
    simp only [Service.ProcessAllVSAs]
    rcases s.ProcessSnapshotVSA d ctx report
      (s.processComponents d ctx report getGitURL getDigest report.Components w)
      with ⟨⟨p, e⟩, w2⟩
    cases e <;> exact ⟨rfl, rfl⟩
  obtain ⟨loopEvs, snapEvs, rs, h1, h2, h3, h4, h5, h6⟩ :=
    processAllVSAs_trace s d ctx report getGitURL getDigest w
  refine ⟨hres.1, hres.2, ⟨loopEvs, snapEvs, h1, h2, ?_, ?_, h5, h6⟩, ?_⟩
  · rw [← filterMap_filter_loopCall Event.lookupCall
      (by intro e he; cases e <;> simp_all [Event.isLoopCall, Event.lookupCall]) loopEvs, h4]
    exact lookupCall_loopCalls report _ rs h3
  · rw [List.countP_append, List.countP_cons]
    have e1 : loopEvs.countP Event.isSnapshotEntry = 0 := by
      rw [List.countP_eq_zero]
      intro e he
      simp [h5 e he]
    have e2 : snapEvs.countP Event.isSnapshotEntry = 0 := by
      rw [List.countP_eq_zero]
      intro e he
      simp [Event.not_snapshotEntry_of_stageCall e (h6 e he)]
    simp [e1, e2, Event.isSnapshotEntry]
  · intro h
    rw [hres.1]
    exact h _

/-- C5: in `ProcessAllVSAs` the loop body calls, for each component of the
report in turn, `getGitURL`, then `getDigest`, then `ProcessComponentVSA` with
the report, the component and the two values looked up when `getDigest`
returned the nil error, and nothing when it returned an error; so there are as
many entries of `ProcessComponentVSA` as digests found, each entry follows a
lookup of its git URL and a successful lookup of its digest, and
`ProcessSnapshotVSA` is entered exactly once. -/
theorem processAllVSAs_skips_failed_digest {σ ρ κ α Sg Ctx : Type} (s : Service Sg)
    (d : Collaborators σ ρ κ α Sg Ctx) (ctx : Ctx) (report : Report ρ κ)
    (getGitURL : Component ρ κ → σ → String × σ)
    (getDigest : Component ρ κ → σ → (String × Option GoError) × σ)
    (w : World σ ρ κ α) :
    ∃ (evs : List (Event ρ κ α)) (rs : List (String × String × Option GoError)),
      (s.ProcessAllVSAs d ctx report getGitURL getDigest w).2.trace = w.trace ++ evs ∧
      rs.length = report.Components.length ∧
      evs.filter Event.isLoopCall =
        (report.Components.zip rs).flatMap (loopCalls report) ∧
      evs.countP Event.isComponentEntry = evs.countP Event.isDigestFound ∧
      (∀ (r : Report ρ κ) (c : Component ρ κ) (u dg : String),
        Event.processComponentVSA r c u dg ∈ evs →
          r = report ∧ c ∈ report.Components ∧
          Event.getGitURL c u ∈ evs ∧ Event.getDigest c (dg, none) ∈ evs) ∧
      evs.countP Event.isSnapshotEntry = 1 := by
  obtain ⟨evs, rs, h1, h2, h3, h4⟩ :=
    processAllVSAs_loopCalls s d ctx report getGitURL getDigest w
  refine ⟨evs, rs, h1, h2, h3, ?_, ?_, h4⟩
  · rw [← countP_filter_loopCall Event.isComponentEntry
        (by intro e he; cases e <;> simp_all [Event.isLoopCall, Event.isComponentEntry]) evs,
      ← countP_filter_loopCall Event.isDigestFound
        (by
          intro e he
          cases e <;> simp_all [Event.isLoopCall, Event.isDigestFound]) evs, h3]
    exact count_entries_loopCalls report _ rs
  · intro r c u dg hmem
    have hin : Event.processComponentVSA r c u dg ∈ evs.filter Event.isLoopCall := by
      rw [List.mem_filter]; exact ⟨hmem, rfl⟩
    rw [h3, List.mem_flatMap] at hin
    obtain ⟨⟨c2, u2, dg2, e2⟩, hz, hc⟩ := hin
    have hsub : ∀ e, e ∈ loopCalls report (c2, u2, dg2, e2) → e ∈ evs := by
      intro e he
      have : e ∈ evs.filter Event.isLoopCall := by
        rw [h3, List.mem_flatMap]; exact ⟨_, hz, he⟩
      exact (List.mem_filter.mp this).1
    cases e2 with
    | some err => simp [loopCalls] at hc
    | none =>
      simp [loopCalls] at hc
      obtain ⟨rfl, rfl, rfl, rfl⟩ := hc
      refine ⟨rfl, (List.of_mem_zip hz).1, hsub _ ?_, hsub _ ?_⟩ <;> simp [loopCalls]



/-- C8: `ProcessComponentVSA` runs generate-and-write, then the construction
of the attestor on the written path, then the attestation with that attestor.
The first stage to return an error is the last one called, and the result is
the empty reference with that error wrapped under the stage's own message; the
three messages differ. When no stage returns an error the result is the
reference `AttestVSA` returned, with the nil error. -/
theorem processComponentVSA_stages {σ ρ κ α Sg Ctx : Type} (s : Service Sg)
    (d : Collaborators σ ρ κ α Sg Ctx) (ctx : Ctx) (report : Report ρ κ)
    (comp : Component ρ κ) (gitURL digest : String) (w : World σ ρ κ α) :
    (∀ p1 err st1,
      d.GenerateAndWriteVSA ctx (NewGenerator report comp)
        { TempDirPrefix := "vsa-", FilePerm := 0o600 } w.st = ((p1, some err), st1) →
      s.ProcessComponentVSA d ctx report comp gitURL digest w =
        (("", some (GoError.wrapf "failed to generate and write component VSA" err)),
          { st := st1
            trace := w.trace ++
              [Event.processComponentVSA report comp gitURL digest,
               Event.generateAndWriteVSA (NewGenerator report comp)
                 { TempDirPrefix := "vsa-", FilePerm := 0o600 } (p1, some err)] })) ∧
    (∀ p1 st1 a2 err st2,
      d.GenerateAndWriteVSA ctx (NewGenerator report comp)
        { TempDirPrefix := "vsa-", FilePerm := 0o600 } w.st = ((p1, none), st1) →
      d.NewAttestor p1 gitURL digest s.signer st1 = ((a2, some err), st2) →
      s.ProcessComponentVSA d ctx report comp gitURL digest w =
        (("", some (GoError.wrapf "failed to create component attestor" err)),
          { st := st2
            trace := w.trace ++
              [Event.processComponentVSA report comp gitURL digest,
               Event.generateAndWriteVSA (NewGenerator report comp)
                 { TempDirPrefix := "vsa-", FilePerm := 0o600 } (p1, none),
               Event.newAttestor p1 gitURL digest (a2, some err)] })) ∧
    (∀ p1 st1 a2 st2 p3 err st3,
      d.GenerateAndWriteVSA ctx (NewGenerator report comp)
        { TempDirPrefix := "vsa-", FilePerm := 0o600 } w.st = ((p1, none), st1) →
      d.NewAttestor p1 gitURL digest s.signer st1 = ((a2, none), st2) →
      d.AttestVSA ctx a2 st2 = ((p3, some err), st3) →
      s.ProcessComponentVSA d ctx report comp gitURL digest w =
        (("", some (GoError.wrapf "failed to attest component VSA" err)),
          { st := st3
            trace := w.trace ++
              [Event.processComponentVSA report comp gitURL digest,
               Event.generateAndWriteVSA (NewGenerator report comp)
                 { TempDirPrefix := "vsa-", FilePerm := 0o600 } (p1, none),
               Event.newAttestor p1 gitURL digest (a2, none),
               Event.attestVSA a2 (p3, some err)] })) ∧
    (∀ p1 st1 a2 st2 envelopePath st3,
      d.GenerateAndWriteVSA ctx (NewGenerator report comp)
        { TempDirPrefix := "vsa-", FilePerm := 0o600 } w.st = ((p1, none), st1) →
      d.NewAttestor p1 gitURL digest s.signer st1 = ((a2, none), st2) →
      d.AttestVSA ctx a2 st2 = ((envelopePath, none), st3) →
      s.ProcessComponentVSA d ctx report comp gitURL digest w =
        ((envelopePath, none),
          { st := st3
            trace := w.trace ++
              [Event.processComponentVSA report comp gitURL digest,
               Event.generateAndWriteVSA (NewGenerator report comp)
                 { TempDirPrefix := "vsa-", FilePerm := 0o600 } (p1, none),
               Event.newAttestor p1 gitURL digest (a2, none),
               Event.attestVSA a2 (envelopePath, none)] })) ∧
    (∀ err : GoError,
      (GoError.wrapf "failed to generate and write component VSA" err).Unwrap = some err ∧
      (GoError.wrapf "failed to create component attestor" err).Unwrap = some err ∧
      (GoError.wrapf "failed to attest component VSA" err).Unwrap = some err ∧
      (GoError.wrapf "failed to generate and write component VSA" err).Error =
        "failed to generate and write component VSA" ++ ": " ++ err.Error ∧
      (GoError.wrapf "failed to create component attestor" err).Error =
        "failed to create component attestor" ++ ": " ++ err.Error ∧
      (GoError.wrapf "failed to attest component VSA" err).Error =
        "failed to attest component VSA" ++ ": " ++ err.Error) ∧
    ("failed to generate and write component VSA" ≠ "failed to create component attestor" ∧
     "failed to generate and write component VSA" ≠ "failed to attest component VSA" ∧
     "failed to create component attestor" ≠ "failed to attest component VSA") := by
  refine ⟨?_, ?_, ?_, ?_, ?_, ?_⟩
  · intro p1 err st1 h1
    simp [Service.ProcessComponentVSA, World.call, World.enter, h1]
  · intro p1 st1 a2 err st2 h1 h2
    simp [Service.ProcessComponentVSA, World.call, World.enter, h1, h2]
  · intro p1 st1 a2 st2 p3 err st3 h1 h2 h3
    simp [Service.ProcessComponentVSA, World.call, World.enter, h1, h2, h3]
  · intro p1 st1 a2 st2 p3 st3 h1 h2 h3
    simp [Service.ProcessComponentVSA, World.call, World.enter, h1, h2, h3]
  · intro err
    exact ⟨rfl, rfl, rfl, rfl, rfl, rfl⟩
  · decide

/-- C8, at the scenario: generation fails for the component `bad`, and
`ProcessComponentVSA` returns the empty reference with the generation error
wrapped, having called no later stage. -/
theorem processComponentVSA_stages_witness :
    (Service.ProcessComponentVSA (Service.mk ()) demoCollaborators () demoReport
      (demoComponent "bad") "https://git/bad" "sha256:1" demoWorld).1 =
      ("", some (GoError.wrapf "failed to generate and write component VSA"
        (GoError.errorf "disk full"))) :=
  congrArg Prod.fst
    ((processComponentVSA_stages (Service.mk ()) demoCollaborators () demoReport
      (demoComponent "bad") "https://git/bad" "sha256:1" demoWorld).1
      "" (GoError.errorf "disk full") 1 (by decide))


/-- The scenario, run: the report has the components `img1`, `bad` and `img3`.
All three are looked up, in this order; `img1` goes through the three stages,
`bad` stops at the generation, `img3` has no digest and is skipped; the
snapshot is processed once, at the end, and `ProcessAllVSAs` returns nil. -/
theorem processAllVSAs_scenario :
    (Service.ProcessAllVSAs (Service.mk ()) demoCollaborators () demoReport demoGetGitURL
      demoGetDigest demoWorld) =
      (none,
        { st := 14
          trace :=
            [Event.getGitURL (demoComponent "img1") "https://git/img1",
             Event.getDigest (demoComponent "img1") ("sha256:img1", none),
             Event.processComponentVSA demoReport (demoComponent "img1") "https://git/img1"
               "sha256:img1",
             Event.generateAndWriteVSA (NewGenerator demoReport (demoComponent "img1"))
               { TempDirPrefix := "vsa-", FilePerm := 0o600 } ("/tmp/vsa-2/vsa-img1.json", none),
             Event.newAttestor "/tmp/vsa-2/vsa-img1.json" "https://git/img1" "sha256:img1"
               ("/tmp/vsa-2/vsa-img1.json|https://git/img1|sha256:img1", none),
             Event.attestVSA "/tmp/vsa-2/vsa-img1.json|https://git/img1|sha256:img1"
               ("/tmp/vsa-2/vsa-img1.json|https://git/img1|sha256:img1.intoto.jsonl", none),
             Event.getGitURL (demoComponent "bad") "https://git/bad",
             Event.getDigest (demoComponent "bad") ("sha256:bad", none),
             Event.processComponentVSA demoReport (demoComponent "bad") "https://git/bad"
               "sha256:bad",
             Event.generateAndWriteVSA (NewGenerator demoReport (demoComponent "bad"))
               { TempDirPrefix := "vsa-", FilePerm := 0o600 }
               ("", some (GoError.errorf "disk full")),
             Event.getGitURL (demoComponent "img3") "https://git/img3",
             Event.getDigest (demoComponent "img3") ("", some (GoError.errorf "no such image")),
             Event.processSnapshotVSA demoReport,
             Event.generateAndWriteSnapshotVSA demoReport ("/tmp/snapshot-vsa.json", none),
             Event.getVSAPredicateDigest "/tmp/snapshot-vsa.json" ("sha256:0", none),
             Event.newAttestor "/tmp/snapshot-vsa.json" "" "sha256:0"
               ("/tmp/snapshot-vsa.json||sha256:0", none),
             Event.attestVSA "/tmp/snapshot-vsa.json||sha256:0"
               ("/tmp/snapshot-vsa.json||sha256:0.intoto.jsonl", none)] }) := by
  decide

/-! ## Theorems: paths -/

theorem splitSlash_ne_nil (x : List Char) : splitSlash x ≠ [] := by
  cases x with
  | nil => simp [splitSlash]
  | cons c cs =>
    simp only [splitSlash]
    split
    · simp
    · split <;> simp

theorem splitSlash_append (a b : List Char) :
    splitSlash (a ++ '/' :: b) = splitSlash a ++ splitSlash b := by
  induction a with
  | nil => simp [splitSlash]
  | cons c a ih =>
    simp only [List.cons_append, splitSlash]
    by_cases hc : c = '/'
    · simp [hc, ih]
    · simp only [hc, if_false, List.append_eq]
      rw [ih]
      cases h : splitSlash a with
      | nil => exact absurd h (splitSlash_ne_nil a)
      | cons x xs => simp

theorem splitSlash_of_not_mem (f : List Char) (h : '/' ∉ f) : splitSlash f = [f] := by
  induction f with
  | nil => rfl
  | cons c f ih =>
    have hc : c ≠ '/' := fun e => h (by simp [e])
    have hf : '/' ∉ f := fun e => h (by simp [e])
    simp [splitSlash, hc, ih hf]

theorem mem_splitSlash (x : List Char) : ∀ e ∈ splitSlash x, '/' ∉ e := by
  induction x with
  | nil => simp [splitSlash]
  | cons c cs ih =>
    intro e he
    simp only [splitSlash] at he
    by_cases hc : c = '/'
    · simp only [hc, if_true, List.mem_cons] at he
      rcases he with rfl | he
      · simp
      · exact ih e he
    · simp only [hc, if_false] at he
      cases h : splitSlash cs with
      | nil => exact absurd h (splitSlash_ne_nil cs)
      | cons y ys =>
        rw [h] at he ih
        simp only [List.mem_cons] at he
        rcases he with rfl | he
        · have := ih y (by simp)
          simp only [List.mem_cons, not_or]
          exact ⟨fun e => hc e.symm, this⟩
        · exact ih e (by simp [he])

theorem splitSlash_joinSlash (els : List (List Char)) (hne : els ≠ [])
    (h : ∀ e ∈ els, '/' ∉ e) : splitSlash (joinSlash els) = els := by
  induction els with
  | nil => exact absurd rfl hne
  | cons x rest ih =>
    cases rest with
    | nil => simpa [joinSlash] using splitSlash_of_not_mem x (h x (by simp))
    | cons y rest =>
      simp only [joinSlash]
      rw [splitSlash_append, splitSlash_of_not_mem x (h x (by simp)),
        ih (by simp) (fun e he => h e (by simp [he]))]
      rfl

theorem joinSlash_append_singleton (els : List (List Char)) (hne : els ≠ []) (f : List Char) :
    joinSlash (els ++ [f]) = joinSlash els ++ '/' :: f := by
  induction els with
  | nil => exact absurd rfl hne
  | cons x rest ih =>
    cases rest with
    | nil => simp [joinSlash]
    | cons y rest =>
      have e : ∀ (a b : List Char) (r : List (List Char)),
          joinSlash (a :: b :: r) = a ++ '/' :: joinSlash (b :: r) := fun _ _ _ => rfl
      have := ih (by simp)
      rw [List.cons_append, List.cons_append, e, e, ← List.cons_append, this]
      simp

theorem StackOk.tail {rooted : Bool} {top : List Char} {below : List (List Char)}
    (h : StackOk rooted (top :: below)) : StackOk rooted below := h.2.2.2.2

theorem StackOk.of_append {rooted : Bool} (a b : List (List Char))
    (h : StackOk rooted (a ++ b)) : StackOk rooted b := by
  induction a with
  | nil => exact h
  | cons x a ih => exact ih (StackOk.tail h)

theorem cleanStep_plain (rooted : Bool) (stack : List (List Char)) (el : List Char)
    (h : PlainElement el) : cleanStep rooted stack el = el :: stack := by
  obtain ⟨h1, _, h3, h4⟩ := h
  simp [cleanStep, h1, h3, h4]

theorem cleanStep_nil (rooted : Bool) (stack : List (List Char)) :
    cleanStep rooted stack [] = stack := by
  simp [cleanStep]

theorem cleanStep_push (rooted : Bool) (stack : List (List Char)) (el : List Char)
    (h : StackOk rooted (el :: stack)) : cleanStep rooted stack el = el :: stack := by
  obtain ⟨h1, _, h3, h4, _⟩ := h
  by_cases hd : el = ['.', '.']
  · obtain ⟨hr, hb⟩ := h4 hd
    subst hd
    cases stack with
    | nil => simp [cleanStep, hr]
    | cons top below =>
      have : top = ['.', '.'] := hb top (by simp)
      simp [cleanStep, this]
  · simp [cleanStep, h1, h3, hd]

theorem cleanStep_ok (rooted : Bool) (stack : List (List Char)) (el : List Char)
    (hs : StackOk rooted stack) (hel : '/' ∉ el) : StackOk rooted (cleanStep rooted stack el) := by
  unfold cleanStep
  by_cases h1 : el = [] ∨ el = ['.']
  · simp [h1, hs]
  · simp only [h1, if_false]
    have h1a : el ≠ [] := fun e => h1 (Or.inl e)
    have h1b : el ≠ ['.'] := fun e => h1 (Or.inr e)
    by_cases hd : el = ['.', '.']
    · simp only [hd, if_true]
      cases stack with
      | nil =>
        cases rooted with
        | true => simp [StackOk]
        | false => simp [StackOk]
      | cons top below =>
        by_cases ht : top = ['.', '.']
        · simp only [ht, if_true]
          have hr := (hs.2.2.2.1 ht).1
          subst ht
          refine ⟨by simp, by simp, by simp, fun _ => ⟨hr, by simp⟩, hs⟩
        · simp only [ht, if_false]
          exact StackOk.tail hs
    · simp only [hd, if_false]
      exact ⟨h1a, hel, h1b, fun e => absurd e hd, hs⟩

theorem foldl_cleanStep_ok (rooted : Bool) (els : List (List Char)) :
    ∀ acc, StackOk rooted acc → (∀ e ∈ els, '/' ∉ e) →
      StackOk rooted (els.foldl (cleanStep rooted) acc) := by
  induction els with
  | nil => intro acc h _; exact h
  | cons e els ih =>
    intro acc h hel
    exact ih _ (cleanStep_ok rooted acc e h (hel e (by simp)))
      (fun x hx => hel x (by simp [hx]))

theorem foldl_cleanStep_reverse (rooted : Bool) (els : List (List Char)) :
    ∀ acc, StackOk rooted (els.reverse ++ acc) →
      els.foldl (cleanStep rooted) acc = els.reverse ++ acc := by
  induction els with
  | nil => intro acc _; rfl
  | cons e els ih =>
    intro acc h
    have h2 : StackOk rooted (els.reverse ++ (e :: acc)) := by
      simpa [List.reverse_cons, List.append_assoc] using h
    have h3 : StackOk rooted (e :: acc) := StackOk.of_append _ _ h2
    simp only [List.foldl_cons, cleanStep_push rooted acc e h3]
    rw [ih _ h2]
    simp

theorem StackOk.mem {rooted : Bool} :
    ∀ {stack : List (List Char)}, StackOk rooted stack → ∀ e ∈ stack, e ≠ [] ∧ '/' ∉ e := by
  intro stack
  induction stack with
  | nil => intro _ e he; simp at he
  | cons top below ih =>
    intro h e he
    simp only [List.mem_cons] at he
    rcases he with rfl | he
    · exact ⟨h.1, h.2.1⟩
    · exact ih (StackOk.tail h) e he

theorem joinSlash_head (x : List Char) (rest : List (List Char)) (hx : x ≠ []) :
    (joinSlash (x :: rest)).head? = x.head? := by
  cases x with
  | nil => exact absurd rfl hx
  | cons c cs =>
    cases rest with
    | nil => rfl
    | cons y rest => rfl

theorem head_ne_slash_of_not_mem (x : List Char) (h : '/' ∉ x) : x.head? ≠ some '/' := by
  cases x with
  | nil => simp
  | cons c cs =>
    simp only [List.head?_cons, ne_eq, Option.some.injEq]
    intro e
    exact h (by simp [e])

theorem cleanOut_ne_nil (rooted : Bool) (stack : List (List Char))
    (h : StackOk rooted stack) : cleanOut rooted stack ≠ [] := by
  unfold cleanOut
  cases rooted with
  | true => simp
  | false =>
    by_cases hs : stack = []
    · simp [hs]
    · simp only [Bool.false_eq_true, if_false, hs]
      cases hr : stack.reverse with
      | nil => simp at hr; exact absurd hr hs
      | cons x rest =>
        have hx := StackOk.mem h x (by
          have : x ∈ stack.reverse := by rw [hr]; simp
          simpa using this)
        intro e
        have := joinSlash_head x rest hx.1
        rw [e] at this
        cases x with
        | nil => exact hx.1 rfl
        | cons c cs => simp at this

theorem cleanOut_head (rooted : Bool) (stack : List (List Char)) (h : StackOk rooted stack) :
    (cleanOut rooted stack).head? = some '/' ↔ rooted = true := by
  unfold cleanOut
  cases rooted with
  | true => simp
  | false =>
    by_cases hs : stack = []
    · simp [hs]
    · simp only [Bool.false_eq_true, if_false, hs, iff_false]
      cases hr : stack.reverse with
      | nil => simp at hr; exact absurd hr hs
      | cons x rest =>
        have hx := StackOk.mem h x (by
          have : x ∈ stack.reverse := by rw [hr]; simp
          simpa using this)
        rw [joinSlash_head x rest hx.1]
        exact head_ne_slash_of_not_mem x hx.2

theorem foldl_splitSlash_cleanOut (rooted : Bool) (stack : List (List Char))
    (h : StackOk rooted stack) :
    (splitSlash (cleanOut rooted stack)).foldl (cleanStep rooted) [] = stack := by
  have hrev : stack.reverse.foldl (cleanStep rooted) [] = stack := by
    have := foldl_cleanStep_reverse rooted stack.reverse [] (by simpa using h)
    simpa using this
  have hmem : ∀ e ∈ stack.reverse, '/' ∉ e := fun e he =>
    (StackOk.mem h e (by simpa using he)).2
  unfold cleanOut
  cases rooted with
  | true =>
    simp only [if_true]
    by_cases hs : stack = []
    · subst hs; simp [splitSlash, joinSlash, cleanStep]
    · have hne : stack.reverse ≠ [] := by simpa using hs
      have : splitSlash ('/' :: joinSlash stack.reverse) = [] :: stack.reverse := by
        simp [splitSlash, splitSlash_joinSlash _ hne hmem]
      rw [this, List.foldl_cons, cleanStep_nil]
      exact hrev
  | false =>
    by_cases hs : stack = []
    · subst hs; simp [splitSlash, cleanStep]
    · have hne : stack.reverse ≠ [] := by simpa using hs
      simp only [Bool.false_eq_true, if_false, hs]
      rw [splitSlash_joinSlash _ hne hmem]
      exact hrev

/-- Cleaning a cleaned path followed by one more element is one more step of
the cleaning. -/
theorem cleanChars_cleanOut_append (rooted : Bool) (stack : List (List Char))
    (el : List Char) (h : StackOk rooted stack) (hel : '/' ∉ el) :
    cleanChars (cleanOut rooted stack ++ '/' :: el) =
      cleanOut rooted (cleanStep rooted stack el) := by
  have hne : cleanOut rooted stack ++ '/' :: el ≠ [] := by simp
  have hhead : (cleanOut rooted stack ++ '/' :: el).head? = some '/' ↔ rooted = true := by
    rw [← cleanOut_head rooted stack h]
    cases hc : cleanOut rooted stack with
    | nil => exact absurd hc (cleanOut_ne_nil rooted stack h)
    | cons c cs => simp
  have hdec : decide ((cleanOut rooted stack ++ '/' :: el).head? = some '/') = rooted := by
    cases rooted with
    | true => simpa using hhead
    | false => simpa using hhead
  unfold cleanChars
  simp only [hne, if_false, hdec]
  rw [splitSlash_append, List.foldl_append, foldl_splitSlash_cleanOut rooted stack h,
    splitSlash_of_not_mem el hel]
  simp only [List.foldl_cons, List.foldl_nil]
  cases rooted with
  | true =>
    have ht : (cleanOut true stack ++ '/' :: el).head? = some '/' := hhead.mpr rfl
    simp only [ht, if_true]
    simp [cleanOut]
  | false =>
    have hf : ¬ (cleanOut false stack ++ '/' :: el).head? = some '/' := fun e => by
      simpa using hhead.mp e
    simp only [hf, if_false]
    simp [cleanOut]

/-- Every result of the cleaning is the path written for a well-formed
stack. -/
theorem cleanChars_eq_cleanOut (x : List Char) :
    ∃ (rooted : Bool) (stack : List (List Char)),
      StackOk rooted stack ∧ cleanChars x = cleanOut rooted stack := by
  by_cases hx : x = []
  · exact ⟨false, [], trivial, by simp [hx, cleanChars, cleanOut]⟩
  · refine ⟨decide (x.head? = some '/'),
      (splitSlash x).foldl (cleanStep (decide (x.head? = some '/'))) [],
      foldl_cleanStep_ok _ _ _ trivial (mem_splitSlash x), ?_⟩
    simp [cleanChars, hx, cleanOut]

theorem dropWhile_append_stop (p : Char → Bool) (g rest : List Char) (c0 : Char)
    (h : ∀ c ∈ g, p c = true) (h0 : p c0 = false) :
    (g ++ c0 :: rest).dropWhile p = c0 :: rest := by
  induction g with
  | nil => simp [List.dropWhile, h0]
  | cons c g ih =>
    simp [List.dropWhile, h c (by simp), ih (fun x hx => h x (by simp [hx]))]

theorem dropWhile_all (p : Char → Bool) (g : List Char) (h : ∀ c ∈ g, p c = true) :
    g.dropWhile p = [] := by
  induction g with
  | nil => rfl
  | cons c g ih =>
    simp [List.dropWhile, h c (by simp), ih (fun x hx => h x (by simp [hx]))]

theorem takeWhile_append_stop (p : Char → Bool) (g rest : List Char) (c0 : Char)
    (h : ∀ c ∈ g, p c = true) (h0 : p c0 = false) :
    (g ++ c0 :: rest).takeWhile p = g := by
  induction g with
  | nil => simp [List.takeWhile, h0]
  | cons c g ih =>
    simp [List.takeWhile, h c (by simp), ih (fun x hx => h x (by simp [hx]))]

theorem takeWhile_all (p : Char → Bool) (g : List Char) (h : ∀ c ∈ g, p c = true) :
    g.takeWhile p = g := by
  induction g with
  | nil => rfl
  | cons c g ih =>
    simp [List.takeWhile, h c (by simp), ih (fun x hx => h x (by simp [hx]))]

theorem ne_slash_of_not_mem (g : List Char) (h : '/' ∉ g) :
    ∀ c ∈ g, (fun c : Char => decide (c ≠ '/')) c = true := by
  intro c hc
  simp only [ne_eq, decide_eq_true_eq]
  rintro rfl
  exact h hc

theorem dropWhile_ne_slash_append (g rest : List Char) (h : '/' ∉ g) :
    (g ++ '/' :: rest).dropWhile (fun c => c ≠ '/') = '/' :: rest :=
  dropWhile_append_stop _ g rest '/' (ne_slash_of_not_mem g h) (by simp)

theorem dropWhile_ne_slash_of_not_mem (g : List Char) (h : '/' ∉ g) :
    g.dropWhile (fun c => c ≠ '/') = [] :=
  dropWhile_all _ g (ne_slash_of_not_mem g h)

theorem takeWhile_ne_slash_append (g rest : List Char) (h : '/' ∉ g) :
    (g ++ '/' :: rest).takeWhile (fun c => c ≠ '/') = g :=
  takeWhile_append_stop _ g rest '/' (ne_slash_of_not_mem g h) (by simp)

theorem takeWhile_ne_slash_of_not_mem (g : List Char) (h : '/' ∉ g) :
    g.takeWhile (fun c => c ≠ '/') = g :=
  takeWhile_all _ g (ne_slash_of_not_mem g h)

theorem throughLastSlash_append (a f : List Char) (h : '/' ∉ f) :
    throughLastSlash (a ++ '/' :: f) = a ++ ['/'] := by
  unfold throughLastSlash
  have : (a ++ '/' :: f).reverse = f.reverse ++ '/' :: a.reverse := by simp
  rw [this, dropWhile_ne_slash_append _ _ (by simpa using h)]
  simp

theorem throughLastSlash_of_not_mem (f : List Char) (h : '/' ∉ f) :
    throughLastSlash f = [] := by
  unfold throughLastSlash
  rw [dropWhile_ne_slash_of_not_mem _ (by simpa using h)]
  rfl

theorem cleanOut_cons (rooted : Bool) (stack : List (List Char)) (f : List Char)
    (hs : stack ≠ []) : cleanOut rooted (f :: stack) = cleanOut rooted stack ++ '/' :: f := by
  have hne : stack.reverse ≠ [] := by simpa using hs
  unfold cleanOut
  cases rooted with
  | true => simp [joinSlash_append_singleton _ hne]
  | false => simp [joinSlash_append_singleton _ hne, hs]

/-- The directory of a cleaned path that ends in a plain element is the
cleaned path without that element. -/
theorem dir_cleanOut_cons (rooted : Bool) (stack : List (List Char)) (f : List Char)
    (h : StackOk rooted stack) (hf : PlainElement f) :
    cleanChars (throughLastSlash (cleanOut rooted (f :: stack))) = cleanOut rooted stack := by
  by_cases hs : stack = []
  · subst hs
    cases rooted with
    | true =>
      have : cleanOut true [f] = [] ++ '/' :: f := by simp [cleanOut, joinSlash]
      rw [this, throughLastSlash_append _ _ hf.2.1]
      decide
    | false =>
      have : cleanOut false [f] = f := by simp [cleanOut, joinSlash]
      rw [this, throughLastSlash_of_not_mem _ hf.2.1]
      decide
  · rw [cleanOut_cons rooted stack f hs, throughLastSlash_append _ _ hf.2.1]
    have := cleanChars_cleanOut_append rooted stack [] h (by simp)
    rw [cleanStep_nil] at this
    exact this

theorem base_mk_append (a f : List Char) (hf : PlainElement f) :
    Base (String.mk (a ++ '/' :: f)) = String.mk f := by
  obtain ⟨h1, h2, _, _⟩ := hf
  have hne : String.mk (a ++ '/' :: f) ≠ "" := by
    intro e
    have := congrArg String.data e
    simp at this
  have hrev : (a ++ '/' :: f).reverse = f.reverse ++ '/' :: a.reverse := by simp
  have h2r : '/' ∉ f.reverse := by simpa using h2
  have hdrop : (f.reverse ++ '/' :: a.reverse).dropWhile (fun c => c = '/') =
      f.reverse ++ '/' :: a.reverse := by
    cases hfr : f.reverse with
    | nil => simp at hfr; exact absurd hfr h1
    | cons c cs =>
      have hc : c ≠ '/' := fun e => h2r (by rw [hfr]; simp [e])
      simp [List.dropWhile, hc]
  unfold Base
  simp only [hne, if_false, hrev, hdrop]
  rw [List.reverse_reverse, takeWhile_ne_slash_append _ _ h2r]
  simp [h1]

theorem base_mk_plain (f : List Char) (hf : PlainElement f) :
    Base (String.mk f) = String.mk f := by
  obtain ⟨h1, h2, _, _⟩ := hf
  have hne : String.mk f ≠ "" := by
    intro e
    have := congrArg String.data e
    simp at this
    exact h1 this
  have h2r : '/' ∉ f.reverse := by simpa using h2
  have hdrop : f.reverse.dropWhile (fun c => c = '/') = f.reverse := by
    cases hfr : f.reverse with
    | nil => simp at hfr; exact absurd hfr h1
    | cons c cs =>
      have hc : c ≠ '/' := fun e => h2r (by rw [hfr]; simp [e])
      simp [List.dropWhile, hc]
  unfold Base
  simp only [hne, if_false, hdrop]
  rw [List.reverse_reverse, takeWhile_ne_slash_of_not_mem _ h2r]
  simp [h1]

/-- Joining a plain element to a cleaned path: the directory of the result is
the cleaned path, and its last element is the element joined. -/
theorem dir_base_join_clean (x f : String) (hf : PlainElement f.data) :
    Dir (Join (Clean x) f) = Clean x ∧ Base (Join (Clean x) f) = f := by
  obtain ⟨rooted, stack, hok, hx⟩ := cleanChars_eq_cleanOut x.data
  have hc : Clean x = String.mk (cleanOut rooted stack) := by simp [Clean, hx]
  have hne : Clean x ≠ "" := by
    rw [hc]
    intro e
    have := congrArg String.data e
    simp at this
    exact cleanOut_ne_nil rooted stack hok this
  have hj : Join (Clean x) f = String.mk (cleanOut rooted (f.data :: stack)) := by
    unfold Join
    simp only [ne_eq, hne, not_false_eq_true, if_true]
    rw [hc]
    unfold Clean
    have : (String.mk (cleanOut rooted stack) ++ "/" ++ f).data =
        cleanOut rooted stack ++ '/' :: f.data := by
      simp [String.data_append]
    rw [this, cleanChars_cleanOut_append rooted stack f.data hok hf.2.1,
      cleanStep_plain rooted stack f.data hf]
  constructor
  · rw [hj, hc]
    unfold Dir
    simp only []
    rw [dir_cleanOut_cons rooted stack f.data hok hf]
  · rw [hj]
    by_cases hs : stack = []
    · subst hs
      cases rooted with
      | true =>
        have : cleanOut true [f.data] = [] ++ '/' :: f.data := by simp [cleanOut, joinSlash]
        rw [this, base_mk_append _ _ hf]
      | false =>
        have : cleanOut false [f.data] = f.data := by simp [cleanOut, joinSlash]
        rw [this, base_mk_plain _ hf]
    · rw [cleanOut_cons rooted stack f.data hs, base_mk_append _ _ hf]

/-! ## Theorems: the filesystem and the writer -/

theorem Fs.file_eq_none (fs : Fs) (path : String) :
    fs.file path = none ↔ ∀ kv ∈ fs.files, kv.1 ≠ path := by
  unfold Fs.file
  cases h : fs.files.find? (fun kv => kv.1 == path) with
  | none =>
    simp only [true_iff]
    intro kv hkv
    have := List.find?_eq_none.mp h kv hkv
    simpa using this
  | some kv =>
    have h1 := List.find?_some h
    have h2 := List.mem_of_find?_eq_some h
    constructor
    · intro e; simp at e
    · intro hall
      exact absurd (by simpa using h1) (hall kv h2)

theorem Fs.file_cons_self (files : List (String × File)) (dirs : List String) (path : String)
    (f : File) : Fs.file { dirs := dirs, files := (path, f) :: files } path = some f := by
  simp [Fs.file, List.find?_cons]

/-- A successful `Mkdir`: the name was free, its parent is a directory, and
the new state has one more directory. -/
theorem Fs.Mkdir_success (fs fs2 : Fs) (name : String) (perm : Nat)
    (h : fs.Mkdir name perm = (none, fs2)) :
    name ∉ fs.dirs ∧ fs.file name = none ∧ Dir name ∈ fs.dirs ∧
      fs2 = { fs with dirs := name :: fs.dirs } := by
  unfold Fs.Mkdir at h
  split at h
  · simp at h
  · split at h
    · simp at h
    · split at h
      · simp at h
      · rename_i h1 _ h3
        simp only [not_or] at h1
        simp only [Prod.mk.injEq, true_and] at h
        refine ⟨h1.1, ?_, by simpa using h3, h.symm⟩
        cases hf : fs.file name with
        | none => rfl
        | some f => simp [hf] at h1

theorem Fs.Mkdir_failure (fs fs2 : Fs) (name : String) (perm : Nat) (e : Errno)
    (h : fs.Mkdir name perm = (some e, fs2)) : fs2 = fs := by
  unfold Fs.Mkdir at h
  split at h
  · simp at h; exact h.2.symm
  · split at h
    · simp at h; exact h.2.symm
    · split at h
      · simp at h; exact h.2.symm
      · simp at h

/-- A successful `afero.TempDir` loop: the directory returned is the one of
some attempt, was not there before, and is the one change of the state. -/
theorem tempDirLoop_success {ρ κ : Type} (rt : Runtime ρ κ) (dir pfx : String) :
    ∀ (fuel i : Nat) (err : Option GoError) (fs fs2 : Fs) (name : String),
      (fuel = 0 → err ≠ none) →
      tempDirLoop rt dir pfx fuel i err fs = ((name, none), fs2) →
      (∃ j, i ≤ j ∧ j < i + fuel ∧ name = Join dir (pfx ++ rt.nextRandom j)) ∧
      name ∉ fs.dirs ∧ fs.file name = none ∧ Dir name ∈ fs.dirs ∧
      fs2 = { fs with dirs := name :: fs.dirs } := by
  intro fuel
  induction fuel with
  | zero =>
    intro i err fs fs2 name h0 h
    simp only [tempDirLoop, Prod.mk.injEq] at h
    exact absurd h.1.2 (h0 rfl)
  | succ fuel ih =>
    intro i err fs fs2 name _ h
    simp only [tempDirLoop] at h
    rcases hm : fs.Mkdir (Join dir (pfx ++ rt.nextRandom i)) 0o700 with ⟨r, fs1⟩
    rw [hm] at h
    cases r with
    | none =>
      simp only [Prod.mk.injEq] at h
      obtain ⟨⟨rfl, _⟩, rfl⟩ := h
      obtain ⟨a, b, c, d⟩ := Fs.Mkdir_success fs fs1 _ _ hm
      exact ⟨⟨i, Nat.le_refl _, by omega, rfl⟩, a, b, c, d⟩
    | some e =>
      have hfs := Fs.Mkdir_failure fs fs1 _ _ e hm
      subst hfs
      cases e with
      | EEXIST =>
        simp only at h
        obtain ⟨⟨j, hj1, hj2, hj3⟩, rest⟩ := ih (i + 1) _ fs1 fs2 name (by simp) h
        exact ⟨⟨j, by omega, by omega, hj3⟩, rest⟩
      | ENOENT => simp at h
      | ENOTDIR => simp at h
      | EISDIR => simp at h

/-- A successful `afero.WriteFile`: the path is not a directory, the file
holds the data afterwards, and when there was no file under the path its
parent is a directory and the file is added with the permission bits asked
for. -/
theorem Fs.WriteFile_success (fs fs2 : Fs) (filename data : String) (perm : Nat)
    (h : fs.WriteFile filename data perm = (none, fs2)) :
    fs2.dirs = fs.dirs ∧
    (∃ q, fs2.file filename = some { data := data, perm := q }) ∧
    (fs.file filename = none →
      Dir filename ∈ fs.dirs ∧
      fs2.files = (filename, { data := data, perm := perm }) :: fs.files) ∧
    (∀ old, fs.file filename = some old →
      fs2.file filename = some { data := data, perm := old.perm } ∧
      fs2.files.length ≤ fs.files.length) := by
  unfold Fs.WriteFile at h
  split at h
  · simp at h
  · cases hf : fs.file filename with
    | some old =>
      rw [hf] at h
      simp only [Prod.mk.injEq, true_and] at h
      subst h
      refine ⟨rfl, ⟨old.perm, Fs.file_cons_self _ _ _ _⟩, by simp, ?_⟩
      intro old2 ho
      simp only [Option.some.injEq] at ho
      subst ho
      refine ⟨Fs.file_cons_self _ _ _ _, ?_⟩
      have hmem : ∃ kv ∈ fs.files, kv.1 = filename := by
        by_contra hc
        have : fs.file filename = none := (Fs.file_eq_none fs filename).mpr (by
          intro kv hkv e; exact hc ⟨kv, hkv, e⟩)
        rw [this] at hf
        exact absurd hf (by simp)
      obtain ⟨kv, hkv, hk⟩ := hmem
      have hlt : (fs.files.filter (fun kv => kv.1 != filename)).length < fs.files.length := by
        apply List.length_filter_lt_length_iff_exists.mpr
        exact ⟨kv, hkv, by simp [hk]⟩
      simp only [List.length_cons]
      omega
    | none =>
      rw [hf] at h
      simp only at h
      split at h
      · simp at h
      · split at h
        · simp at h
        · rename_i _ h3
          simp only [Prod.mk.injEq, true_and] at h
          subst h
          refine ⟨rfl, ⟨perm, Fs.file_cons_self _ _ _ _⟩, ?_, by simp⟩
          intro _
          exact ⟨by simpa using h3, rfl⟩

theorem osTempDir_ne_empty {ρ κ : Type} (rt : Runtime ρ κ) : osTempDir rt ≠ "" := by
  unfold osTempDir
  split
  · decide
  · assumption

/-- What a successful `WritePredicate` did, for any predicate: it encoded the
predicate with the empty prefix and a two-space indent, created one new
directory, the one of some attempt of `afero.TempDir`, and wrote the encoding
under the path it returns, which is the directory joined with the file name;
a file that was not there is added with the writer's permission bits, a file
that was there is overwritten and keeps its own. -/
theorem writePredicate_success {ρ κ : Type} (w : Writer) (rt : Runtime ρ κ)
    (p : Predicate ρ κ) (fs fs2 : Fs) (path : String)
    (h : w.WritePredicate rt p fs = ((path, none), fs2)) :
    ∃ data tempDir : String,
      rt.MarshalIndent p "" "  " = (data, none) ∧
      (∃ j, j < 10000 ∧
        tempDir = Join (osTempDir rt) (w.TempDirPrefix ++ rt.nextRandom j)) ∧
      tempDir ∉ fs.dirs ∧ fs.file tempDir = none ∧
      fs2.dirs = tempDir :: fs.dirs ∧
      path = Join tempDir ("vsa-" ++ sprintS rt (p.Component.index "name") ++ ".json") ∧
      (∃ q, fs2.file path = some { data := data, perm := q }) ∧
      (fs.file path = none →
        Dir path ∈ tempDir :: fs.dirs ∧
        fs2.files = (path, { data := data, perm := w.FilePerm }) :: fs.files) ∧
      (∀ old, fs.file path = some old →
        fs2.file path = some { data := data, perm := old.perm } ∧
        fs2.files.length ≤ fs.files.length) := by
  unfold Writer.WritePredicate at h
  rcases hm : rt.MarshalIndent p "" "  " with ⟨data, e⟩
  rw [hm] at h
  cases e with
  | some err => simp at h
  | none =>
    simp only at h
    rcases ht : TempDir rt fs "" w.TempDirPrefix with ⟨⟨tempDir, e⟩, fs1⟩
    rw [ht] at h
    cases e with
    | some err => simp at h
    | none =>
      simp only at h
      rcases hw : fs1.WriteFile
        (Join tempDir ("vsa-" ++ sprintS rt (p.Component.index "name") ++ ".json"))
        data w.FilePerm with ⟨e, fs3⟩
      rw [hw] at h
      cases e with
      | some err => simp at h
      | none =>
        simp only [Prod.mk.injEq, and_true] at h
        obtain ⟨hp, hfs⟩ := h
        subst hfs
        simp only [TempDir, if_true] at ht
        obtain ⟨⟨j, _, hj2, hj3⟩, h2, h3, _, h5⟩ :=
          tempDirLoop_success rt (osTempDir rt) w.TempDirPrefix 10000 0 none fs fs1 tempDir
            (by simp) ht
        obtain ⟨g1, g2, g3, g4⟩ := Fs.WriteFile_success fs1 fs3 _ data w.FilePerm hw
        have hfile : ∀ q, fs1.file q = fs.file q := by
          intro q; rw [h5]; rfl
        rw [hp] at g2 g3 g4
        rw [hfile] at g3
        refine ⟨data, tempDir, rfl, ⟨j, by omega, hj3⟩, h2, h3, ?_, hp.symm, g2, ?_, ?_⟩
        · rw [g1, h5]
        · intro hn
          have := g3 hn
          rw [h5] at this
          exact this
        · intro old ho
          have := g4 old (by rw [hfile]; exact ho)
          rw [h5] at this
          exact this

theorem plainElement_fileName (n : String) (hn : '/' ∉ n.data) :
    PlainElement ("vsa-" ++ n ++ ".json").data := by
  have hd : ("vsa-" ++ n ++ ".json").data =
      'v' :: 's' :: 'a' :: '-' :: (n.data ++ ['.', 'j', 's', 'o', 'n']) := by
    simp [String.data_append]
  rw [hd]
  refine ⟨by simp, ?_, by simp, by simp⟩
  simp only [List.mem_cons, List.mem_append, not_or]
  refine ⟨by decide, by decide, by decide, by decide, hn, ?_⟩
  decide

/-- What a successful `WritePredicate` did for a predicate whose component
name is a text without separator, on a filesystem whose files lie in
directories: the path returned is the new directory joined with
`vsa-<name>.json`, its directory is the new directory and its last element is
that file name; no file was there, and the one file added holds the encoding
with the writer's permission bits; every other file and directory is as
before. -/
theorem writePredicate_plain_name {ρ κ : Type} (w : Writer) (rt : Runtime ρ κ)
    (p : Predicate ρ κ) (fs fs2 : Fs) (path n : String)
    (hname : p.Component.index "name" = some (Value.str n)) (hsep : '/' ∉ n.data)
    (hwf : fs.WellFormed)
    (h : w.WritePredicate rt p fs = ((path, none), fs2)) :
    ∃ data tempDir : String,
      rt.MarshalIndent p "" "  " = (data, none) ∧
      tempDir ∉ fs.dirs ∧
      path = Join tempDir ("vsa-" ++ n ++ ".json") ∧
      Dir path = tempDir ∧
      Base path = "vsa-" ++ n ++ ".json" ∧
      fs.file path = none ∧
      fs2 = { dirs := tempDir :: fs.dirs
              files := (path, { data := data, perm := w.FilePerm }) :: fs.files } := by
  obtain ⟨data, tempDir, h1, ⟨j, _, hj⟩, h3, _, h5, h6, _, h8, _⟩ :=
    writePredicate_success w rt p fs fs2 path h
  rw [hname] at h6
  simp only [sprintS] at h6
  have htd : tempDir = Clean (osTempDir rt ++ "/" ++ (w.TempDirPrefix ++ rt.nextRandom j)) := by
    rw [hj]
    simp [Join, osTempDir_ne_empty rt]
  have hdb := dir_base_join_clean
    (osTempDir rt ++ "/" ++ (w.TempDirPrefix ++ rt.nextRandom j)) ("vsa-" ++ n ++ ".json")
    (plainElement_fileName n hsep)
  rw [← htd, ← h6] at hdb
  have hnone : fs.file path = none := by
    rw [Fs.file_eq_none]
    intro kv hkv e
    have := hwf kv hkv
    rw [e, hdb.1] at this
    exact h3 this
  refine ⟨data, tempDir, h1, h3, h6, hdb.1, hdb.2, hnone, ?_⟩
  have hf := (h8 hnone).2
  cases fs2 with
  | mk dirs files =>
    simp only at h5 hf
    rw [h5, hf]

/-- The theorem `writePredicate_plain_name` at the scenario: the component
`img1` on a filesystem with the root and `/tmp`. -/
theorem writePredicate_plain_name_witness :
    ∃ data tempDir : String,
      demoRuntime.MarshalIndent
        { ImageRef := "registry/img1", ValidationResult := "passed", Timestamp := "now",
          Verifier := "ec-cli", PolicySource := "my-policy",
          Component := [("name", Value.str "img1")], RuleResults := [] } "" "  " =
        (data, none) ∧
      tempDir ∉ demoFs.dirs ∧
      "/tmp/vsa-123/vsa-img1.json" = Join tempDir ("vsa-" ++ "img1" ++ ".json") ∧
      Dir "/tmp/vsa-123/vsa-img1.json" = tempDir ∧
      Base "/tmp/vsa-123/vsa-img1.json" = "vsa-" ++ "img1" ++ ".json" ∧
      demoFs.file "/tmp/vsa-123/vsa-img1.json" = none ∧
      ({ dirs := ["/tmp/vsa-123", "/", "/tmp"]
         files := [("/tmp/vsa-123/vsa-img1.json",
           { data := "\x7b\n  \"imageRef\": \"registry/img1\"\n\x7d", perm := 0o600 })] } : Fs) =
        { dirs := tempDir :: demoFs.dirs
          files := ("/tmp/vsa-123/vsa-img1.json",
            { data := data, perm := NewWriter.FilePerm }) :: demoFs.files } :=
  writePredicate_plain_name NewWriter demoRuntime
    { ImageRef := "registry/img1", ValidationResult := "passed", Timestamp := "now",
      Verifier := "ec-cli", PolicySource := "my-policy",
      Component := [("name", Value.str "img1")], RuleResults := [] }
    demoFs _ "/tmp/vsa-123/vsa-img1.json" "img1" (by decide) (by decide)
    (by intro kv hkv; simp [demoFs] at hkv) (by decide)

/-- The cleaning, the directory and the last element of some paths. -/
theorem clean_dir_base_examples :
    Clean "/tmp/vsa-1/vsa-a/../../x.json" = "/tmp/x.json" ∧
    Clean "a//b/./c/.." = "a/b" ∧
    Clean "../../a/../.." = "../../.." ∧
    Clean "/../a" = "/a" ∧
    Clean "" = "." ∧
    Clean "a/.." = "." ∧
    Clean "/" = "/" ∧
    Dir "/tmp/x.json" = "/tmp" ∧
    Dir "/x" = "/" ∧
    Dir "x" = "." ∧
    Base "/tmp/x.json" = "x.json" ∧
    Join "/tmp" "vsa-123" = "/tmp/vsa-123" ∧
    Join "/tmp/vsa-123" "vsa-a/../../x.json" = "/tmp/x.json" := by
  decide

/-- The writer made by `NewWriter` and the writer of the service both ask for
the permission bits `0600` and the directory prefix `vsa-`. -/
theorem newWriter_eq : NewWriter = { TempDirPrefix := "vsa-", FilePerm := 0o600 } ∧
    NewWriter.FilePerm = 384 := ⟨rfl, rfl⟩

/-! ## Theorems: the writer and a component name with separators -/

/-- C7, at a component named `a/../../x`: the predicate generated for it is
written with success, the directory created is `/tmp/vsa-123`, and the path
returned is `/tmp/x.json`: the file is not named `vsa-a/../../x.json` and does
not lie in the directory created. -/
theorem writePredicate_path_escapes_tempDir :
    ∃ p : Predicate String String,
      (NewGenerator demoReport (demoComponent "a/../../x")).GeneratePredicate () "now" =
        Except.ok p ∧
      p.Component.index "name" = some (Value.str "a/../../x") ∧
      NewWriter.WritePredicate demoRuntime p demoFs =
        (("/tmp/x.json", none),
          { dirs := ["/tmp/vsa-123", "/", "/tmp"]
            files := [("/tmp/x.json",
              { data := "\x7b\n  \"imageRef\": \"registry/a/../../x\"\n\x7d", perm := 0o600 })] }) ∧
      Dir "/tmp/x.json" = "/tmp" ∧
      Base "/tmp/x.json" = "x.json" ∧
      "/tmp/x.json" ≠ "/tmp/vsa-123" ++ "/vsa-" ++ "a/../../x" ++ ".json" := by
  refine ⟨_, rfl, ?_, ?_, ?_, ?_, ?_⟩ <;> decide

/-- C6, at a component named `a/../../x` and a filesystem that has
`/tmp/x.json`: the predicate generated for it is written with success, one
directory is created and no file is: the file `/tmp/x.json` that was there is
overwritten, and keeps its permission bits `0644`. -/
theorem writePredicate_overwrites_existing_file :
    ∃ p : Predicate String String,
      (NewGenerator demoReport (demoComponent "a/../../x")).GeneratePredicate () "now" =
        Except.ok p ∧
      NewWriter.WritePredicate demoRuntime p demoFsWithFile =
        (("/tmp/x.json", none),
          { dirs := ["/tmp/vsa-123", "/", "/tmp"]
            files := [("/tmp/x.json",
              { data := "\x7b\n  \"imageRef\": \"registry/a/../../x\"\n\x7d", perm := 0o644 })] }) ∧
      demoFsWithFile.file "/tmp/x.json" = some { data := "old", perm := 0o644 } ∧
      (NewWriter.WritePredicate demoRuntime p demoFsWithFile).2.files.length =
        demoFsWithFile.files.length ∧
      (NewWriter.WritePredicate demoRuntime p demoFsWithFile).2.dirs.length =
        demoFsWithFile.dirs.length + 1 := by
  refine ⟨_, rfl, ?_, ?_, ?_, ?_⟩ <;> decide

end VSA
